import Mathlib

set_option maxRecDepth 40000
set_option linter.unusedVariables false

/-!
Verification of the dual-key bitwise anonymizer
(`src/BitwiseDualKeyAnonymizer/anonymizer.py`).

Python `bytes` values are modelled as `List Nat` with every element `< 256`;
Python `str` values are modelled as `List Char`.  Machine bytes are plain
natural numbers and every masking (`&&& 255`) of the source is kept
explicit.  Fallible code returns `Except String`.
-/

deriving instance DecidableEq for Except

namespace Anon

/-! ## Definitions -/

/-- State of a `BitwiseDualKeyAnonymizer` after `__init__`: the two derived
keystreams (`self.primary_sequence`, `self.secondary_sequence`). -/
structure AnonState where
  primary_sequence : List Nat
  secondary_sequence : List Nat

/-- Embedding of `_bitwise_transform_byte` (anonymizer.py, lines 132-191):
XOR with the primary keystream byte, position-based circular rotation,
XOR with the position-salted secondary keystream byte; reversed order
(with opposite rotation) when `reverse` is set. -/
def bitwise_transform_byte (st : AnonState) (byte pos : Nat) (reverse : Bool) : Nat :=
  let primary_mask := st.primary_sequence.getD (pos % st.primary_sequence.length) 0
  let secondary_mask := st.secondary_sequence.getD (pos % st.secondary_sequence.length) 0
  match reverse with
  | false =>
    let r1 := byte ^^^ primary_mask
    let rotation := pos % 8
    let r2 := ((r1 >>> rotation) ||| (r1 <<< (8 - rotation))) &&& 255
    let position_key := (secondary_mask + pos) &&& 255
    r2 ^^^ position_key
  | true =>
    let position_key := (secondary_mask + pos) &&& 255
    let r1 := byte ^^^ position_key
    let rotation := pos % 8
    let r2 := ((r1 <<< rotation) ||| (r1 >>> (8 - rotation))) &&& 255
    r2 ^^^ primary_mask

/-- Embedding of `_positional_bit_scramble` (anonymizer.py, lines 193-236):
XOR with the mask `(position * 13 + 41) & 0xFF`, then a nibble swap at odd
positions; on `reverse` the nibble swap is undone before the XOR. -/
def positional_bit_scramble (byte pos : Nat) (reverse : Bool) : Nat :=
  let mask := (pos * 13 + 41) &&& 255
  match reverse with
  | false =>
    let r := byte ^^^ mask
    if pos &&& 1 = 1 then ((r &&& 15) <<< 4) ||| ((r &&& 240) >>> 4) else r
  | true =>
    let b := if pos &&& 1 = 1 then ((byte &&& 15) <<< 4) ||| ((byte &&& 240) >>> 4) else byte
    b ^^^ mask

/-- The forward per-byte transform used by `anonymize` (lines 346-351):
three-layer transform, then scramble pass. -/
def forwardByte (st : AnonState) (byte pos : Nat) : Nat :=
  positional_bit_scramble (bitwise_transform_byte st byte pos false) pos false

/-- The inverse per-byte transform used by `deanonymize` (lines 383-392):
reverse scramble pass, then reverse three-layer transform. -/
def inverseByte (st : AnonState) (byte pos : Nat) : Nat :=
  bitwise_transform_byte st (positional_bit_scramble byte pos true) pos true

/-- Embedding of `for pos, byte in enumerate(data)` together with a per-byte
transform: map `f` over the list, passing each element's position. -/
def mapWithPos (f : Nat → Nat → Nat) : Nat → List Nat → List Nat
  | _, [] => []
  | p, b :: t => f p b :: mapWithPos f (p + 1) t

/-- The digit alphabet of `_to_base36` (anonymizer.py, line 258). -/
def base36Alphabet : List Char := "0123456789ABCDEFGHIJKLMNOPQRSTUVWXYZ".toList

/-- Fuel-based embedding of the `while number:` loop of `_to_base36`
(lines 262-266): each step divides by 36 and prepends the digit character.
A fuel of `number + 1` always suffices since the argument strictly
decreases. -/
def toBase36Go : Nat → Nat → List Char → List Char
  | 0, _, acc => acc
  | fuel + 1, n, acc =>
    if n = 0 then acc
    else toBase36Go fuel (n / 36) (base36Alphabet.getD (n % 36) '0' :: acc)

/-- Embedding of `_to_base36` (lines 238-267). -/
def to_base36 (number : Nat) : List Char :=
  if number = 0 then ['0'] else toBase36Go (number + 1) number []

/-- Value of one base-36 digit character, as accepted by Python's
`int(s, 36)`: `0-9`, `A-Z` and also lowercase `a-z`. -/
def base36DigitVal (c : Char) : Option Nat :=
  if '0' ≤ c ∧ c ≤ '9' then some (c.toNat - 48)
  else if 'A' ≤ c ∧ c ≤ 'Z' then some (c.toNat - 65 + 10)
  else if 'a' ≤ c ∧ c ≤ 'z' then some (c.toNat - 97 + 10)
  else none

def from_base36Go : List Char → Nat → Option Nat
  | [], acc => some acc
  | c :: t, acc =>
    match base36DigitVal c with
    | some v => from_base36Go t (acc * 36 + v)
    | none => none

/-- Embedding of `_from_base36` (lines 269-287), i.e. of the Python builtin
`int(s, 36)` on the inputs arising here: the empty string and any string
with a character outside the base-36 alphabet are rejected with a
`ValueError`.  (Python's additional tolerance for surrounding whitespace,
a leading sign and `_` digit grouping is not modelled: token payloads are
produced by `split("_")` and so never contain those characters.) -/
def from_base36 (s : List Char) : Except String Nat :=
  if s.isEmpty then Except.error "invalid literal for int() with base 36"
  else
    match from_base36Go s 0 with
    | some n => Except.ok n
    | none => Except.error "invalid literal for int() with base 36"

/-- Big-endian value of a byte string, as computed by
`int.from_bytes(data, byteorder="big")`. -/
def bytesToNat (data : List Nat) : Nat := data.foldl (fun acc b => acc * 256 + b) 0

/-- Embedding of `_bytes_to_base36` (lines 289-307). -/
def bytes_to_base36 (data : List Nat) : List Char := to_base36 (bytesToNat data)

/-- Fuel-based embedding of Python's `int.bit_length()`:
`bitLenGo (n+1) n` is the bit length of `n` (`0` for `0`). -/
def bitLenGo : Nat → Nat → Nat
  | 0, _ => 0
  | fuel + 1, n => if n = 0 then 0 else bitLenGo fuel (n / 2) + 1

/-- Python's `int.bit_length()`. -/
def bitLen (n : Nat) : Nat := bitLenGo (n + 1) n

/-- Python's `int.to_bytes(len, byteorder="big")`: exactly `len` big-endian
bytes of `n`. -/
def toBytesFixed : Nat → Nat → List Nat
  | 0, _ => []
  | len + 1, n => toBytesFixed len (n / 256) ++ [n % 256]

/-- The minimal big-endian serialization computed in `_base36_to_bytes`
(lines 312-314): `(bit_length + 7) // 8` bytes. -/
def natToBytesBE (n : Nat) : List Nat := toBytesFixed ((bitLen n + 7) / 8) n

/-- Embedding of `_base36_to_bytes` (lines 309-314). -/
def base36_to_bytes (s : List Char) : Except String (List Nat) :=
  (from_base36 s).map natToBytesBE

/-! ### UTF-8 (Python `str.encode()` / `bytes.decode()`) -/

/-- UTF-8 encoding of one Unicode scalar value (`Char` carries the scalar
value range invariant), written with `/` and `%` for the bit fields. -/
def utf8EncodeChar (c : Char) : List Nat :=
  let n := c.toNat
  if n < 128 then [n]
  else if n < 2048 then [192 + n / 64, 128 + n % 64]
  else if n < 65536 then [224 + n / 4096, 128 + n / 64 % 64, 128 + n % 64]
  else [240 + n / 262144, 128 + n / 4096 % 64, 128 + n / 64 % 64, 128 + n % 64]

/-- Python `str.encode()`: UTF-8 bytes of a string. -/
def utf8Encode : List Char → List Nat
  | [] => []
  | c :: t => utf8EncodeChar c ++ utf8Encode t

/-- One continuation byte after a 2-byte leader: scalar value and rest. -/
def utf8Take1 (b1 : Nat) : List Nat → Option (Char × List Nat)
  | b2 :: t2 =>
    if 128 ≤ b2 ∧ b2 < 192 then
      let n := (b1 - 192) * 64 + (b2 - 128)
      if 128 ≤ n then some (Char.ofNat n, t2) else none
    else none
  | [] => none

/-- Two continuation bytes after a 3-byte leader (rejecting overlong
encodings and surrogates). -/
def utf8Take2 (b1 : Nat) : List Nat → Option (Char × List Nat)
  | b2 :: b3 :: t3 =>
    if (128 ≤ b2 ∧ b2 < 192) ∧ (128 ≤ b3 ∧ b3 < 192) then
      let n := (b1 - 224) * 4096 + (b2 - 128) * 64 + (b3 - 128)
      if 2048 ≤ n ∧ (n < 55296 ∨ 57344 ≤ n) then some (Char.ofNat n, t3) else none
    else none
  | _ => none

/-- Three continuation bytes after a 4-byte leader. -/
def utf8Take3 (b1 : Nat) : List Nat → Option (Char × List Nat)
  | b2 :: b3 :: b4 :: t4 =>
    if (128 ≤ b2 ∧ b2 < 192) ∧ (128 ≤ b3 ∧ b3 < 192) ∧ (128 ≤ b4 ∧ b4 < 192) then
      let n := (b1 - 240) * 262144 + (b2 - 128) * 4096 + (b3 - 128) * 64 + (b4 - 128)
      if 65536 ≤ n ∧ n < 1114112 then some (Char.ofNat n, t4) else none
    else none
  | _ => none

/-- Decode one UTF-8 character from the front of a byte sequence: the
character and the remaining bytes, or `none` on malformed input
(truncated sequences, stray continuation bytes, overlong encodings,
surrogates, out-of-range values). -/
def utf8Step : List Nat → Option (Char × List Nat)
  | [] => Option.none
  | b1 :: t =>
    if b1 < 128 then some (Char.ofNat b1, t)
    else if b1 < 192 then Option.none
    else if b1 < 224 then utf8Take1 b1 t
    else if b1 < 240 then utf8Take2 b1 t
    else if b1 < 248 then utf8Take3 b1 t
    else Option.none

/-- Fuel-based decoding loop; each step consumes at least one byte, so a
fuel of the byte count suffices. -/
def utf8DecodeGo : Nat → List Nat → Option (List Char)
  | _, [] => some []
  | 0, _ :: _ => Option.none
  | fuel + 1, b :: l =>
    match utf8Step (b :: l) with
    | some (c, rest) => (utf8DecodeGo fuel rest).map (fun cs => c :: cs)
    | Option.none => Option.none

/-- Python `bytes.decode()`: UTF-8 decoding, `none` on a malformed byte
sequence (`UnicodeDecodeError`). -/
def utf8Decode (l : List Nat) : Option (List Char) := utf8DecodeGo l.length l

/-! ### Scalar values and typed serialization -/

/-- Embedding of the `DataType` enum (anonymizer.py, lines 33-49). -/
inductive DataType
  | STRING
  | INT
  | FLOAT
  | BOOL
  | DECIMAL
  | NONE
deriving DecidableEq

/-- The `value` attribute of a `DataType` member: its one-character marker. -/
def DataType.value : DataType → Char
  | .STRING => 'S'
  | .INT => 'I'
  | .FLOAT => 'F'
  | .BOOL => 'B'
  | .DECIMAL => 'D'
  | .NONE => 'N'

/-- The `DataType(marker)` enum constructor: the member with the given
value, or a `ValueError` (modelled as `none`) for an unknown marker. -/
def DataType.ofMarker (c : Char) : Option DataType :=
  if c = 'S' then some .STRING
  else if c = 'I' then some .INT
  else if c = 'F' then some .FLOAT
  else if c = 'B' then some .BOOL
  else if c = 'D' then some .DECIMAL
  else if c = 'N' then some .NONE
  else none

/-- A Python `decimal.Decimal` value as the triple returned by
`as_tuple()`: sign (`true` = negative), coefficient digits (most
significant first), exponent. -/
structure PDecimal where
  sign : Bool
  digits : List Nat
  exp : Int
deriving DecidableEq

/-- Decimal values as produced by `Decimal(string)` construction: a
nonempty coefficient whose digits are `< 10` with no leading zero (except
the single digit `0` itself). -/
def PDecimal.Valid (d : PDecimal) : Prop :=
  d.digits ≠ [] ∧ (∀ x ∈ d.digits, x < 10) ∧ (d.digits.headD 0 ≠ 0 ∨ d.digits = [0])

/-- The supported scalar values of the anonymizer.  Python `float` values
are not modelled (IEEE-754 binary floating point and its 17-significant-
digit repr round-trip are outside this embedding); every theorem below
quantifies over this type. -/
inductive PValue
  | none
  | bool (b : Bool)
  | int (i : Int)
  | dec (d : PDecimal)
  | str (s : List Char)
deriving DecidableEq

/-- Values whose Decimal components are canonical (see `PDecimal.Valid`). -/
def PValue.Valid : PValue → Prop
  | .dec d => d.Valid
  | _ => True

/-- Decimal digit character `str(d)` for `d < 10`. -/
def decDigitChar (d : Nat) : Char := Char.ofNat (48 + d)

/-- Fuel-based digit loop of Python's `str(int)` for nonnegative values. -/
def toDecGo : Nat → Nat → List Char → List Char
  | 0, _, acc => acc
  | fuel + 1, n, acc =>
    if n = 0 then acc
    else toDecGo fuel (n / 10) (decDigitChar (n % 10) :: acc)

/-- Python `str(n)` for a natural number. -/
def natToDecStr (n : Nat) : List Char :=
  if n = 0 then ['0'] else toDecGo (n + 1) n []

/-- Python `str(i)` for an integer (a `-` sign for negative values). -/
def intToStr (i : Int) : List Char :=
  if i < 0 then '-' :: natToDecStr i.natAbs else natToDecStr i.toNat

/-- Value of one decimal digit character. -/
def decDigitVal (c : Char) : Option Nat :=
  if '0' ≤ c ∧ c ≤ '9' then some (c.toNat - 48) else none

def parseNatGo : List Char → Nat → Option Nat
  | [], acc => some acc
  | c :: t, acc =>
    match decDigitVal c with
    | some v => parseNatGo t (acc * 10 + v)
    | none => none

/-- Digits-only part of Python `int(s)`: `none` when empty or non-digit. -/
def parseNat (s : List Char) : Option Nat :=
  if s.isEmpty then none else parseNatGo s 0

/-- Python builtin `int(s)` on the strings arising here: an optional sign
followed by decimal digits (whitespace tolerance and `_` grouping are not
modelled; such strings never occur in this development). -/
def parseInt (s : List Char) : Except String Int :=
  match s with
  | [] => Except.error "invalid literal for int()"
  | c :: t =>
    if c = '-' then
      match parseNat t with
      | some n => Except.ok (-(n : Int))
      | Option.none => Except.error "invalid literal for int()"
    else if c = '+' then
      match parseNat t with
      | some n => Except.ok (n : Int)
      | Option.none => Except.error "invalid literal for int()"
    else
      match parseNat (c :: t) with
      | some n => Except.ok (n : Int)
      | Option.none => Except.error "invalid literal for int()"

/-- The digit string of a decimal coefficient. -/
def decDigitsChars (dg : List Nat) : List Char := dg.map decDigitChar

/-- Embedding of `str(Decimal)` (the `__str__` to-scientific-string
conversion of the decimal specification, driven by the stored sign,
digits and exponent). -/
def decimalToStr (d : PDecimal) : List Char :=
  let dg := decDigitsChars d.digits
  let adjusted : Int := d.exp + (d.digits.length : Int) - 1
  let body :=
    if d.exp ≤ 0 ∧ -6 ≤ adjusted then
      if d.exp = 0 then dg
      else if adjusted < 0 then
        '0' :: '.' :: (List.replicate ((-adjusted).toNat - 1) '0' ++ dg)
      else
        dg.take (adjusted.toNat + 1) ++ '.' :: dg.drop (adjusted.toNat + 1)
    else
      dg.take 1 ++ (if 1 < dg.length then '.' :: dg.drop 1 else []) ++
        'E' :: (if adjusted < 0 then '-' :: natToDecStr (-adjusted).toNat
                else '+' :: natToDecStr adjusted.toNat)
  if d.sign then '-' :: body else body

/-- Split a character list at the first occurrence of `sep`. -/
def splitAtChar (sep : Char) : List Char → Option (List Char × List Char)
  | [] => Option.none
  | c :: t =>
    if c = sep then some ([], t)
    else (splitAtChar sep t).map (fun p => (c :: p.1, p.2))

/-- Digit values of a character list; `none` if any is not a digit. -/
def digitVals : List Char → Option (List Nat)
  | [] => some []
  | c :: t =>
    match decDigitVal c with
    | some v => (digitVals t).map (v :: ·)
    | Option.none => Option.none

/-- Leading zeros of a parsed coefficient collapse (keeping one digit). -/
def stripLeadingZeros : List Nat → List Nat
  | [] => []
  | [d] => [d]
  | 0 :: t => stripLeadingZeros t
  | l => l

/-- Embedding of `Decimal(string)` construction on the numeric strings
arising here (the part after the optional sign): digits with an optional
point, optional `E`/`e` exponent; the coefficient collapses leading
zeros. -/
def parseDecimalBody (sign : Bool) (s1 : List Char) : Except String PDecimal :=
  let mantExp :=
    match splitAtChar 'E' s1 with
    | some (m, e) => (m, some e)
    | Option.none =>
      match splitAtChar 'e' s1 with
      | some (m, e) => (m, some e)
      | Option.none => (s1, Option.none)
  let mant := mantExp.1
  let expRes : Except String Int :=
    match mantExp.2 with
    | some e => parseInt e
    | Option.none => Except.ok 0
  match expRes with
  | Except.error e => Except.error e
  | Except.ok eVal =>
    let ipfp :=
      match splitAtChar '.' mant with
      | some (a, b) => (a, b)
      | Option.none => (mant, [])
    match digitVals ipfp.1, digitVals ipfp.2 with
    | some ipd, some fpd =>
      if ipd.isEmpty ∧ fpd.isEmpty then Except.error "InvalidOperation"
      else Except.ok ⟨sign, stripLeadingZeros (ipd ++ fpd), eVal - (fpd.length : Int)⟩
    | _, _ => Except.error "InvalidOperation"

/-- Embedding of `Decimal(string)` construction on the numeric strings
arising here: optional sign, then `parseDecimalBody`. -/
def parseDecimal (s : List Char) : Except String PDecimal :=
  match s with
  | [] => parseDecimalBody false []
  | c :: t =>
    if c = '-' then parseDecimalBody true t
    else if c = '+' then parseDecimalBody false t
    else parseDecimalBody false (c :: t)

/-- Embedding of `_serialize_with_type` (anonymizer.py, lines 404-432).
The source matches `bool()` before `int()` because Python booleans are
integers; here the tagged union keeps the branches disjoint, and the
boolean branch serializes `str(int(b))`. -/
def serialize_with_type : PValue → List Char × DataType
  | .none => ("None".toList, .NONE)
  | .bool b => (if b then ['1'] else ['0'], .BOOL)
  | .int i => (intToStr i, .INT)
  | .dec d => (decimalToStr d, .DECIMAL)
  | .str s => (s, .STRING)

/-- Embedding of `_deserialize_with_type` (lines 434-462): each branch
drops the two leading characters (`"<marker>:"`) of the decoded typed
string and parses the remainder.  The `FLOAT` branch of the source calls
`float(data[2:])`; Python floats are outside this embedding, and no
theorem below depends on that branch. -/
def deserialize_with_type (data : List Char) (data_type : DataType) : Except String PValue :=
  match data_type with
  | .NONE => Except.ok .none
  | .BOOL => (parseInt (data.drop 2)).map (fun n => .bool (n ≠ 0))
  | .INT => (parseInt (data.drop 2)).map .int
  | .FLOAT => Except.error "float deserialization not modelled"
  | .DECIMAL => (parseDecimal (data.drop 2)).map .dec
  | .STRING => Except.ok (.str (data.drop 2))

/-! ### Token framing -/

/-- `TOKEN_VERSION = "1"` (anonymizer.py, line 401). -/
def TOKEN_VERSION : List Char := ['1']

/-- `TOKEN_PREFIX = "TKN"` (anonymizer.py, line 402). -/
def tokenPrefTKN : List Char := ['T', 'K', 'N']

/-- Embedding of `_create_token` (lines 464-470):
`f"{TOKEN_PREFIX}_V{TOKEN_VERSION}_{type_marker}{data}"`. -/
def create_token (type_marker : Char) (data : List Char) : List Char :=
  tokenPrefTKN ++ '_' :: 'V' :: TOKEN_VERSION ++ '_' :: type_marker :: data

/-- Python `str.split("_")`: fields between underscores, empties kept. -/
def splitUndGo : List Char → List Char → List (List Char)
  | [], cur => [cur.reverse]
  | c :: t, cur =>
    if c = '_' then cur.reverse :: splitUndGo t [] else splitUndGo t (c :: cur)

/-- Python `token.split("_")`. -/
def splitUnd (s : List Char) : List (List Char) := splitUndGo s []

/-- Embedding of `_parse_token` (lines 472-486).  The source wraps the
body in `try`: a wrong part count or prefix raises, indexing
`combined_data[0]` on an empty third part raises `IndexError`, and a
wrong version raises; all are re-raised as `ValueError` (here: any
`Except.error`).  Note the source checks the version only after
destructuring the third part. -/
def parse_token (token : List Char) : Except String (Char × List Char) :=
  let parts := splitUnd token
  if parts.length ≠ 3 ∨ parts.getD 0 [] ≠ tokenPrefTKN then
    Except.error "Invalid token format"
  else
    match parts.getD 2 [] with
    | [] => Except.error "Invalid token format"
    | m :: data =>
      if parts.getD 1 [] ≠ 'V' :: TOKEN_VERSION then
        Except.error "Unsupported token version"
      else Except.ok (m, data)

/-! ### Orchestration -/

/-- Embedding of `BitwiseDualKeyAnonymizer.anonymize` (lines 316-355):
UTF-8 encode, prepend the version byte `b"\x01"`, transform each byte
(three-layer transform then scramble) at its position, base-36 encode. -/
def bitwise_anonymize (st : AnonState) (s : List Char) : List Char :=
  let data := 1 :: utf8Encode s
  bytes_to_base36 (mapWithPos (fun pos byte => forwardByte st byte pos) 0 data)

/-- Embedding of `BitwiseDualKeyAnonymizer.deanonymize` (lines 357-395):
base-36 decode, inverse-transform each byte (reverse scramble then reverse
three-layer transform) at its position, then drop the leading byte
(`result[1:]`).  The version byte is never inspected. -/
def bitwise_deanonymize (st : AnonState) (s : List Char) : Except String (List Nat) :=
  (base36_to_bytes s).map (fun bs =>
    (mapWithPos (fun pos byte => inverseByte st byte pos) 0 bs).drop 1)

/-- Embedding of `TypeAwareDualKeyAnonymizer.anonymize` (lines 488-507):
serialize with type, build `"<marker>:<serialized>"`, anonymize, wrap. -/
def anonymize (st : AnonState) (data : PValue) : List Char :=
  let sd := serialize_with_type data
  let data_with_type := sd.2.value :: ':' :: sd.1
  create_token sd.2.value (bitwise_anonymize st data_with_type)

/-- Embedding of `TypeAwareDualKeyAnonymizer.deanonymize` (lines 509-522):
parse the token, look up the `DataType`, reverse the byte transform,
UTF-8 decode, deserialize. -/
def deanonymize (st : AnonState) (token : List Char) : Except String PValue := do
  let md ← parse_token token
  let data_type ←
    match DataType.ofMarker md.1 with
    | some dt => Except.ok dt
    | Option.none => Except.error "is not a valid DataType"
  let bs ← bitwise_deanonymize st md.2
  let typed_data ←
    match utf8Decode bs with
    | some cs => Except.ok cs
    | Option.none => Except.error "UnicodeDecodeError"
  deserialize_with_type typed_data data_type

/-! ### Keystream generation -/

/-- Fuel-based embedding of the `while len(result) < length:` loop of
`_generate_sequence` (lines 122-130): append `hash(current + key)` digests
until `length` bytes are accumulated.  A fuel of `length + 1` suffices for
any hash with nonempty digests, since each iteration grows the
accumulator. -/
def generateGo (hash : List Nat → List Nat) (key : List Nat) (length : Nat) :
    Nat → List Nat → List Nat → List Nat
  | 0, result, _ => result
  | fuel + 1, result, current_hash =>
    if result.length < length then
      let d := hash (current_hash ++ key)
      generateGo hash key length fuel (result ++ d) d
    else result

/-- Embedding of `_generate_sequence` (lines 100-130): iterated hashing of
`current + key`, truncated to `length` bytes (default 2048). -/
def generate_sequence (hash : List Nat → List Nat) (key : List Nat)
    (length : Nat := 2048) : List Nat :=
  (generateGo hash key length (length + 1) [] key).take length

/-- Modelled from the spec (§4.1): the digest chain `d1 = h(key ++ key)`,
`d(i+1) = h(d(i) ++ key)`, concatenated. -/
def digestChain (hash : List Nat → List Nat) (key : List Nat) :
    List Nat → Nat → List Nat
  | _, 0 => []
  | current, m + 1 =>
    let d := hash (current ++ key)
    d ++ digestChain hash key d m

/-- Modelled from the spec (§4.1): the keystream is the first `length`
bytes of the digest chain seeded with the key. -/
def keystreamSpec (hash : List Nat → List Nat) (key : List Nat) (length : Nat) : List Nat :=
  (digestChain hash key key (length + 1)).take length

/-! ### SHA-256 and SHA-512 (Python `hashlib.sha256` / `hashlib.sha512`)

`__init__` (lines 62-98) derives the two keystreams with
`hashlib.sha256` and `hashlib.sha512`; these are embedded below per
FIPS 180-4, over byte lists, with 32- and 64-bit words as `Nat` masked explicitly. -/

/-- 32-bit rotate right. -/
def rotr32 (x n : Nat) : Nat := ((x >>> n) ||| (x <<< (32 - n))) &&& 4294967295

/-- 64-bit rotate right. -/
def rotr64 (x n : Nat) : Nat := ((x >>> n) ||| (x <<< (64 - n))) &&& 18446744073709551615

/-- The SHA-256 round constants (FIPS 180-4 §4.2.2). -/
def sha256K : List Nat := [
  1116352408, 1899447441, 3049323471, 3921009573,
  961987163, 1508970993, 2453635748, 2870763221,
  3624381080, 310598401, 607225278, 1426881987,
  1925078388, 2162078206, 2614888103, 3248222580,
  3835390401, 4022224774, 264347078, 604807628,
  770255983, 1249150122, 1555081692, 1996064986,
  2554220882, 2821834349, 2952996808, 3210313671,
  3336571891, 3584528711, 113926993, 338241895,
  666307205, 773529912, 1294757372, 1396182291,
  1695183700, 1986661051, 2177026350, 2456956037,
  2730485921, 2820302411, 3259730800, 3345764771,
  3516065817, 3600352804, 4094571909, 275423344,
  430227734, 506948616, 659060556, 883997877,
  958139571, 1322822218, 1537002063, 1747873779,
  1955562222, 2024104815, 2227730452, 2361852424,
  2428436474, 2756734187, 3204031479, 3329325298]

/-- The SHA-256 initial hash value (FIPS 180-4 §5.3.3). -/
def sha256H0 : List Nat := [
  1779033703, 3144134277, 1013904242, 2773480762,
  1359893119, 2600822924, 528734635, 1541459225]

/-- The SHA-512 round constants (FIPS 180-4 §4.2.3). -/

def sha512K : List Nat := [
  4794697086780616226, 8158064640168781261,
  13096744586834688815, 16840607885511220156,
  4131703408338449720, 6480981068601479193,
  10538285296894168987, 12329834152419229976,
  15566598209576043074, 1334009975649890238,
  2608012711638119052, 6128411473006802146,
  8268148722764581231, 9286055187155687089,
  11230858885718282805, 13951009754708518548,
  16472876342353939154, 17275323862435702243,
  1135362057144423861, 2597628984639134821,
  3308224258029322869, 5365058923640841347,
  6679025012923562964, 8573033837759648693,
  10970295158949994411, 12119686244451234320,
  12683024718118986047, 13788192230050041572,
  14330467153632333762, 15395433587784984357,
  489312712824947311, 1452737877330783856,
  2861767655752347644, 3322285676063803686,
  5560940570517711597, 5996557281743188959,
  7280758554555802590, 8532644243296465576,
  9350256976987008742, 10552545826968843579,
  11727347734174303076, 12113106623233404929,
  14000437183269869457, 14369950271660146224,
  15101387698204529176, 15463397548674623760,
  17586052441742319658, 1182934255886127544,
  1847814050463011016, 2177327727835720531,
  2830643537854262169, 3796741975233480872,
  4115178125766777443, 5681478168544905931,
  6601373596472566643, 7507060721942968483,
  8399075790359081724, 8693463985226723168,
  9568029438360202098, 10144078919501101548,
  10430055236837252648, 11840083180663258601,
  13761210420658862357, 14299343276471374635,
  14566680578165727644, 15097957966210449927,
  16922976911328602910, 17689382322260857208,
  500013540394364858, 748580250866718886,
  1242879168328830382, 1977374033974150939,
  2944078676154940804, 3659926193048069267,
  4368137639120453308, 4836135668995329356,
  5532061633213252278, 6448918945643986474,
  6902733635092675308, 7801388544844847127]

/-- The SHA-512 initial hash value (FIPS 180-4 §5.3.5). -/
def sha512H0 : List Nat := [
  7640891576956012808, 13503953896175478587,
  4354685564936845355, 11912009170470909681,
  5840696475078001361, 11170449401992604703,
  2270897969802886507, 6620516959819538809]

/-- Group bytes into big-endian 32-bit words. -/
def bytesToWords32 : List Nat → List Nat
  | a :: b :: c :: d :: t => (((a * 256 + b) * 256 + c) * 256 + d) :: bytesToWords32 t
  | _ => []

/-- Group bytes into big-endian 64-bit words. -/
def bytesToWords64 : List Nat → List Nat
  | a :: b :: c :: d :: e :: f :: g :: h :: t =>
    (((((((a * 256 + b) * 256 + c) * 256 + d) * 256 + e) * 256 + f) * 256 + g) * 256 + h)
      :: bytesToWords64 t
  | _ => []

/-- Group a word list into 16-word message blocks. -/
def chunk16 : List Nat → List (List Nat)
  | w0 :: w1 :: w2 :: w3 :: w4 :: w5 :: w6 :: w7 :: w8 :: w9 :: w10 :: w11 :: w12 :: w13 :: w14 :: w15 :: t =>
    [w0, w1, w2, w3, w4, w5, w6, w7, w8, w9, w10, w11, w12, w13, w14, w15] :: chunk16 t
  | _ => []

/-- Merkle–Damgård padding (FIPS 180-4 §5.1): append `0x80`, zero bytes
to the last `lenField` bytes of a block, then the bit length big-endian
in `lenField` bytes. -/
def sha2Pad (lenField blockSize : Nat) (msg : List Nat) : List Nat :=
  msg ++ 128 :: List.replicate
    ((blockSize - (msg.length + 1 + lenField) % blockSize) % blockSize) 0
    ++ toBytesFixed lenField (8 * msg.length)

/-- Message-schedule extension for SHA-256 (48 extra words). -/
def sha256Extend : Nat → List Nat → List Nat
  | 0, w => w
  | k + 1, w =>
    let i := w.length
    let x15 := w.getD (i - 15) 0
    let s0 := rotr32 x15 7 ^^^ rotr32 x15 18 ^^^ (x15 >>> 3)
    let x2 := w.getD (i - 2) 0
    let s1 := rotr32 x2 17 ^^^ rotr32 x2 19 ^^^ (x2 >>> 10)
    sha256Extend k (w ++ [(w.getD (i - 16) 0 + s0 + w.getD (i - 7) 0 + s1) &&& 4294967295])

/-- The eight working registers a–h of the SHA-2 compression loop. -/
structure Sha2Regs where
  ra : Nat
  rb : Nat
  rc : Nat
  rd : Nat
  re : Nat
  rf : Nat
  rg : Nat
  rh : Nat

/-- One SHA-256 compression round on a `(constant, scheduled word)` pair. -/
def sha256Round (st : Sha2Regs) (kw : Nat × Nat) : Sha2Regs :=
  let s1 := rotr32 st.re 6 ^^^ rotr32 st.re 11 ^^^ rotr32 st.re 25
  let ch := (st.re &&& st.rf) ^^^ ((st.re ^^^ 4294967295) &&& st.rg)
  let temp1 := (st.rh + s1 + ch + kw.1 + kw.2) &&& 4294967295
  let s0 := rotr32 st.ra 2 ^^^ rotr32 st.ra 13 ^^^ rotr32 st.ra 22
  let maj := (st.ra &&& st.rb) ^^^ (st.ra &&& st.rc) ^^^ (st.rb &&& st.rc)
  let temp2 := (s0 + maj) &&& 4294967295
  ⟨(temp1 + temp2) &&& 4294967295, st.ra, st.rb, st.rc,
    (st.rd + temp1) &&& 4294967295, st.re, st.rf, st.rg⟩

/-- SHA-256 compression of one 16-word block into the chaining state. -/
def sha256Block (H : List Nat) (block : List Nat) : List Nat :=
  let w := sha256Extend 48 block
  let s0 : Sha2Regs := ⟨H.getD 0 0, H.getD 1 0, H.getD 2 0, H.getD 3 0,
    H.getD 4 0, H.getD 5 0, H.getD 6 0, H.getD 7 0⟩
  let fin := (sha256K.zip w).foldl sha256Round s0
  [(H.getD 0 0 + fin.ra) &&& 4294967295, (H.getD 1 0 + fin.rb) &&& 4294967295,
    (H.getD 2 0 + fin.rc) &&& 4294967295, (H.getD 3 0 + fin.rd) &&& 4294967295,
    (H.getD 4 0 + fin.re) &&& 4294967295, (H.getD 5 0 + fin.rf) &&& 4294967295,
    (H.getD 6 0 + fin.rg) &&& 4294967295, (H.getD 7 0 + fin.rh) &&& 4294967295]

/-- SHA-256 digest of a byte list (32 bytes), as `hashlib.sha256(msg).digest()`. -/
def sha256 (msg : List Nat) : List Nat :=
  let hf := (chunk16 (bytesToWords32 (sha2Pad 8 64 msg))).foldl sha256Block sha256H0
  (hf.map (toBytesFixed 4)).flatten

/-- Message-schedule extension for SHA-512 (64 extra words). -/
def sha512Extend : Nat → List Nat → List Nat
  | 0, w => w
  | k + 1, w =>
    let i := w.length
    let x15 := w.getD (i - 15) 0
    let s0 := rotr64 x15 1 ^^^ rotr64 x15 8 ^^^ (x15 >>> 7)
    let x2 := w.getD (i - 2) 0
    let s1 := rotr64 x2 19 ^^^ rotr64 x2 61 ^^^ (x2 >>> 6)
    sha512Extend k
      (w ++ [(w.getD (i - 16) 0 + s0 + w.getD (i - 7) 0 + s1) &&& 18446744073709551615])

/-- One SHA-512 compression round on a `(constant, scheduled word)` pair. -/
def sha512Round (st : Sha2Regs) (kw : Nat × Nat) : Sha2Regs :=
  let s1 := rotr64 st.re 14 ^^^ rotr64 st.re 18 ^^^ rotr64 st.re 41
  let ch := (st.re &&& st.rf) ^^^ ((st.re ^^^ 18446744073709551615) &&& st.rg)
  let temp1 := (st.rh + s1 + ch + kw.1 + kw.2) &&& 18446744073709551615
  let s0 := rotr64 st.ra 28 ^^^ rotr64 st.ra 34 ^^^ rotr64 st.ra 39
  let maj := (st.ra &&& st.rb) ^^^ (st.ra &&& st.rc) ^^^ (st.rb &&& st.rc)
  let temp2 := (s0 + maj) &&& 18446744073709551615
  ⟨(temp1 + temp2) &&& 18446744073709551615, st.ra, st.rb, st.rc,
    (st.rd + temp1) &&& 18446744073709551615, st.re, st.rf, st.rg⟩

/-- SHA-512 compression of one 16-word block into the chaining state. -/
def sha512Block (H : List Nat) (block : List Nat) : List Nat :=
  let w := sha512Extend 64 block
  let s0 : Sha2Regs := ⟨H.getD 0 0, H.getD 1 0, H.getD 2 0, H.getD 3 0,
    H.getD 4 0, H.getD 5 0, H.getD 6 0, H.getD 7 0⟩
  let fin := (sha512K.zip w).foldl sha512Round s0
  [(H.getD 0 0 + fin.ra) &&& 18446744073709551615, (H.getD 1 0 + fin.rb) &&& 18446744073709551615,
    (H.getD 2 0 + fin.rc) &&& 18446744073709551615, (H.getD 3 0 + fin.rd) &&& 18446744073709551615,
    (H.getD 4 0 + fin.re) &&& 18446744073709551615, (H.getD 5 0 + fin.rf) &&& 18446744073709551615,
    (H.getD 6 0 + fin.rg) &&& 18446744073709551615, (H.getD 7 0 + fin.rh) &&& 18446744073709551615]

/-- SHA-512 digest of a byte list (64 bytes), as `hashlib.sha512(msg).digest()`. -/
def sha512 (msg : List Nat) : List Nat :=
  let hf := (chunk16 (bytesToWords64 (sha2Pad 16 128 msg))).foldl sha512Block sha512H0
  (hf.map (toBytesFixed 8)).flatten

/-- Embedding of `__init__` (lines 62-98): UTF-8 encode the keys, derive
the primary keystream with SHA-256 and the secondary keystream with
SHA-512 (2048 bytes each, the `_generate_sequence` default). -/
def mkAnonymizer (primary_key secondary_key : List Char) : AnonState :=
  { primary_sequence := generate_sequence sha256 (utf8Encode primary_key)
    secondary_sequence := generate_sequence sha512 (utf8Encode secondary_key) }

/-! ## Theorems -/

theorem xor_cancel_right (a m : Nat) : a ^^^ m ^^^ m = a := by
  rw [Nat.xor_assoc, Nat.xor_self, Nat.xor_zero]

theorem rot_left_right : ∀ k < 8, ∀ x < 256,
    (((((x >>> k) ||| (x <<< (8 - k))) &&& 255) <<< k) |||
      ((((x >>> k) ||| (x <<< (8 - k))) &&& 255) >>> (8 - k))) &&& 255 = x := by
  decide

theorem nibble_swap_swap : ∀ x < 256,
    ((((((x &&& 15) <<< 4) ||| ((x &&& 240) >>> 4)) &&& 15) <<< 4) |||
      (((((x &&& 15) <<< 4) ||| ((x &&& 240) >>> 4)) &&& 240) >>> 4)) = x := by
  decide

theorem and255_lt (x : Nat) : x &&& 255 < 256 :=
  Nat.lt_succ_of_le (Nat.and_le_right)

theorem xor_lt_256 {x y : Nat} (hx : x < 256) (hy : y < 256) : x ^^^ y < 256 :=
  Nat.xor_lt_two_pow (n := 8) hx hy

theorem getD_lt_256 {l : List Nat} (h : ∀ x ∈ l, x < 256) (i : Nat) :
    l.getD i 0 < 256 := by
  rcases Nat.lt_or_ge i l.length with hi | hi
  · rw [List.getD_eq_getElem l 0 hi]
    exact h _ (List.getElem_mem hi)
  · rw [List.getD_eq_default l 0 hi]
    exact Nat.zero_lt_succ _

/-- Forward transform output stays a byte (for any input). -/
theorem bitwise_transform_byte_fwd_lt (st : AnonState) (b p : Nat) :
    bitwise_transform_byte st b p false < 256 := by
  simp only [bitwise_transform_byte]
  exact xor_lt_256 (and255_lt _) (and255_lt _)

theorem shiftLeft4_of_and15_lt (y : Nat) : (y &&& 15) <<< 4 < 256 := by
  have h : y &&& 15 ≤ 15 := Nat.and_le_right
  calc (y &&& 15) <<< 4 ≤ 15 <<< 4 := by
        rw [Nat.shiftLeft_eq, Nat.shiftLeft_eq]; exact Nat.mul_le_mul_right _ h
    _ < 256 := by decide

theorem shiftRight4_of_and240_lt (y : Nat) : (y &&& 240) >>> 4 < 256 := by
  have h : y &&& 240 ≤ 240 := Nat.and_le_right
  calc (y &&& 240) >>> 4 ≤ 240 >>> 4 := by
        rw [Nat.shiftRight_eq_div_pow, Nat.shiftRight_eq_div_pow]
        exact Nat.div_le_div_right h
    _ < 256 := by decide

/-- Forward scramble output stays a byte. -/
theorem positional_bit_scramble_fwd_lt (b p : Nat) (hb : b < 256) :
    positional_bit_scramble b p false < 256 := by
  simp only [positional_bit_scramble]
  have h1 : b ^^^ ((p * 13 + 41) &&& 255) < 256 := xor_lt_256 hb (and255_lt _)
  by_cases hp : p &&& 1 = 1
  · rw [if_pos hp]
    exact Nat.or_lt_two_pow (n := 8) (shiftLeft4_of_and15_lt _) (shiftRight4_of_and240_lt _)
  · rw [if_neg hp]
    exact h1

/-- The scramble pass at a fixed position is undone by its reverse pass. -/
theorem scramble_inv (b p : Nat) (hb : b < 256) :
    positional_bit_scramble (positional_bit_scramble b p false) p true = b := by
  simp only [positional_bit_scramble]
  have hxm : b ^^^ ((p * 13 + 41) &&& 255) < 256 := xor_lt_256 hb (and255_lt _)
  by_cases hp : p &&& 1 = 1
  · rw [if_pos hp, if_pos hp, nibble_swap_swap _ hxm, xor_cancel_right]
  · rw [if_neg hp, if_neg hp, xor_cancel_right]

/-- The three-layer transform at a fixed position is undone by its reverse. -/
theorem transform_inv (st : AnonState) (b p : Nat) (hb : b < 256)
    (hP : ∀ x ∈ st.primary_sequence, x < 256) :
    bitwise_transform_byte st (bitwise_transform_byte st b p false) p true = b := by
  simp only [bitwise_transform_byte]
  rw [xor_cancel_right]
  have hbp : b ^^^ st.primary_sequence.getD (p % st.primary_sequence.length) 0 < 256 :=
    xor_lt_256 hb (getD_lt_256 hP _)
  rw [rot_left_right (p % 8) (Nat.mod_lt _ (by decide)) _ hbp, xor_cancel_right]

/-- Composition of the two inverse passes undoes the two forward passes. -/
theorem inv_fwd_byte (st : AnonState) (b p : Nat) (hb : b < 256)
    (hP : ∀ x ∈ st.primary_sequence, x < 256) :
    inverseByte st (forwardByte st b p) p = b := by
  unfold inverseByte forwardByte
  rw [scramble_inv _ _ (bitwise_transform_byte_fwd_lt st b p),
    transform_inv st b p hb hP]

/-- C2: for every byte `b ∈ [0,255]` and every position `p ≥ 0`, applying the
inverse per-byte transform (reverse scramble pass, then reverse three-layer
transform) to the forward per-byte transform (three-layer transform, then
scramble pass) at the same position returns `b`. -/
theorem claim_C2_byte_transform_involution (st : AnonState) (b p : Nat)
    (hb : b < 256)
    (hP : ∀ x ∈ st.primary_sequence, x < 256)
    (hS : ∀ x ∈ st.secondary_sequence, x < 256) :
    inverseByte st (forwardByte st b p) p = b :=
  inv_fwd_byte st b p hb hP

/-- Witness for C2 at a concrete state, byte and position. -/
theorem claim_C2_witness :
    200 < 256 ∧ inverseByte ⟨[5, 17], [9, 33]⟩ (forwardByte ⟨[5, 17], [9, 33]⟩ 200 7) 7 = 200 :=
  ⟨by decide, claim_C2_byte_transform_involution ⟨[5, 17], [9, 33]⟩ 200 7
    (by decide) (by decide) (by decide)⟩

theorem toBase36Go_zero (fuel : Nat) (acc : List Char) : toBase36Go fuel 0 acc = acc := by
  cases fuel <;> simp [toBase36Go]

theorem toBase36Go_append (fuel : Nat) :
    ∀ n acc, toBase36Go fuel n acc = toBase36Go fuel n [] ++ acc := by
  induction fuel with
  | zero => intro n acc; simp [toBase36Go]
  | succ fuel ih =>
    intro n acc
    by_cases hn : n = 0
    · simp [toBase36Go, hn]
    · rw [toBase36Go, toBase36Go, if_neg hn, if_neg hn, ih (n / 36), ih (n / 36) [_]]
      simp

theorem from_base36Go_append (xs : List Char) :
    ∀ ys acc, from_base36Go (xs ++ ys) acc =
      (from_base36Go xs acc).bind (from_base36Go ys) := by
  induction xs with
  | nil => intro ys acc; simp [from_base36Go]
  | cons c t ih =>
    intro ys acc
    simp only [List.cons_append, from_base36Go]
    cases base36DigitVal c with
    | none => rfl
    | some v => exact ih ys (acc * 36 + v)

theorem base36DigitVal_alphabet : ∀ i < 36, base36DigitVal (base36Alphabet.getD i '0') = some i := by
  decide

theorem from_base36Go_toBase36Go (fuel : Nat) :
    ∀ n, n < 36 ^ fuel → n ≠ 0 → from_base36Go (toBase36Go fuel n []) 0 = some n := by
  induction fuel with
  | zero => intro n hlt hn; omega
  | succ fuel ih =>
    intro n hlt hn
    rw [toBase36Go, if_neg hn, toBase36Go_append]
    by_cases hq : n / 36 = 0
    · rw [hq, toBase36Go_zero]
      simp only [List.nil_append, from_base36Go,
        base36DigitVal_alphabet (n % 36) (Nat.mod_lt _ (by norm_num))]
      have : 0 * 36 + n % 36 = n := by omega
      rw [this]
    · rw [from_base36Go_append, ih (n / 36) (by rw [pow_succ] at hlt; omega) hq]
      simp only [Option.some_bind, from_base36Go,
        base36DigitVal_alphabet (n % 36) (Nat.mod_lt _ (by norm_num))]
      have : n / 36 * 36 + n % 36 = n := by omega
      rw [this]

theorem toBase36Go_ne_nil (fuel n : Nat) (hn : n ≠ 0) :
    toBase36Go (fuel + 1) n [] ≠ [] := by
  rw [toBase36Go, if_neg hn, toBase36Go_append]
  simp

/-- Round-trip of the base-36 rendering of a natural number. -/
theorem from_base36_to_base36 (n : Nat) : from_base36 (to_base36 n) = Except.ok n := by
  by_cases hn : n = 0
  · subst hn; rfl
  · rw [to_base36, if_neg hn, from_base36,
      if_neg (by simpa using toBase36Go_ne_nil n n hn)]
    have hlt : n < 36 ^ (n + 1) :=
      lt_of_lt_of_le (Nat.lt_two_pow n)
        (le_trans (Nat.pow_le_pow_left (by norm_num) n) (Nat.pow_le_pow_right (by norm_num) (Nat.le_succ n)))
    rw [from_base36Go_toBase36Go (n + 1) n hlt hn]

theorem toBase36Go_subset (fuel : Nat) :
    ∀ n acc, (∀ c ∈ acc, c ∈ base36Alphabet) →
      ∀ c ∈ toBase36Go fuel n acc, c ∈ base36Alphabet := by
  induction fuel with
  | zero => intro n acc hacc; simpa [toBase36Go] using hacc
  | succ fuel ih =>
    intro n acc hacc
    by_cases hn : n = 0
    · simpa [toBase36Go, hn] using hacc
    · rw [toBase36Go, if_neg hn]
      refine ih (n / 36) _ ?_
      intro c hc
      rcases List.mem_cons.mp hc with hc | hc
      · subst hc
        have hm : n % 36 < base36Alphabet.length := Nat.mod_lt _ (by norm_num)
        rw [List.getD_eq_getElem _ _ hm]
        exact List.getElem_mem hm
      · exact hacc c hc

/-- Every character of a `_to_base36` output is a base-36 digit. -/
theorem to_base36_subset (n : Nat) : ∀ c ∈ to_base36 n, c ∈ base36Alphabet := by
  by_cases hn : n = 0
  · subst hn
    intro c hc
    rw [to_base36, if_pos rfl, List.mem_singleton] at hc
    subst hc
    decide
  · rw [to_base36, if_neg hn]
    exact toBase36Go_subset (n + 1) n [] (by simp)

theorem to_base36_ne_nil (n : Nat) : to_base36 n ≠ [] := by
  by_cases hn : n = 0
  · subst hn; simp [to_base36]
  · rw [to_base36, if_neg hn]; exact toBase36Go_ne_nil n n hn

theorem bytesToNat_append_singleton (l : List Nat) (b : Nat) :
    bytesToNat (l ++ [b]) = bytesToNat l * 256 + b := by
  simp [bytesToNat, List.foldl_append]

theorem foldl_byte_acc (l : List Nat) :
    ∀ acc, List.foldl (fun a b => a * 256 + b) acc l =
      acc * 256 ^ l.length + bytesToNat l := by
  induction l with
  | nil => intro acc; simp [bytesToNat]
  | cons b t ih =>
    intro acc
    simp only [List.foldl_cons, List.length_cons, bytesToNat]
    rw [ih (acc * 256 + b), ih (0 * 256 + b)]
    ring

theorem bytesToNat_cons (b : Nat) (t : List Nat) :
    bytesToNat (b :: t) = b * 256 ^ t.length + bytesToNat t := by
  simp only [bytesToNat, List.foldl_cons]
  rw [foldl_byte_acc t (0 * 256 + b)]
  have : (0 * 256 + b) = b := by omega
  rw [this]
  rfl

theorem bytesToNat_lt (l : List Nat) (hl : ∀ b ∈ l, b < 256) :
    bytesToNat l < 256 ^ l.length := by
  induction l with
  | nil => simp [bytesToNat]
  | cons b t ih =>
    rw [bytesToNat_cons, List.length_cons, pow_succ]
    have hb : b < 256 := hl b (by simp)
    have ht : bytesToNat t < 256 ^ t.length := ih (fun x hx => hl x (by simp [hx]))
    calc b * 256 ^ t.length + bytesToNat t
        ≤ 255 * 256 ^ t.length + bytesToNat t := by
          have : b ≤ 255 := by omega
          exact Nat.add_le_add_right (Nat.mul_le_mul_right _ this) _
      _ < 255 * 256 ^ t.length + 256 ^ t.length := by omega
      _ = 256 ^ t.length * 256 := by ring

theorem bytesToNat_head_lower (b : Nat) (t : List Nat) (hb : b ≠ 0) :
    256 ^ t.length ≤ bytesToNat (b :: t) := by
  rw [bytesToNat_cons]
  have : 1 * 256 ^ t.length ≤ b * 256 ^ t.length :=
    Nat.mul_le_mul_right _ (by omega)
  omega

theorem toBytesFixed_length (L : Nat) : ∀ n, (toBytesFixed L n).length = L := by
  induction L with
  | zero => intro n; rfl
  | succ L ih => intro n; simp [toBytesFixed, ih]

theorem toBytesFixed_mem_lt (L : Nat) : ∀ n, ∀ b ∈ toBytesFixed L n, b < 256 := by
  induction L with
  | zero => intro n b hb; simp [toBytesFixed] at hb
  | succ L ih =>
    intro n b hb
    rw [toBytesFixed] at hb
    rcases List.mem_append.mp hb with hb | hb
    · exact ih _ b hb
    · simp at hb; omega

theorem bytesToNat_toBytesFixed (L : Nat) :
    ∀ n, n < 256 ^ L → bytesToNat (toBytesFixed L n) = n := by
  induction L with
  | zero => intro n hn; interval_cases n; rfl
  | succ L ih =>
    intro n hn
    rw [toBytesFixed, bytesToNat_append_singleton, ih (n / 256) (by rw [pow_succ] at hn; omega)]
    omega

theorem toBytesFixed_bytesToNat (l : List Nat) (hl : ∀ b ∈ l, b < 256) :
    toBytesFixed l.length (bytesToNat l) = l := by
  induction l using List.reverseRecOn with
  | nil => rfl
  | append_singleton t b ih =>
    have hb : b < 256 := hl b (by simp)
    rw [List.length_append, List.length_singleton, bytesToNat_append_singleton, toBytesFixed]
    have hdiv : (bytesToNat t * 256 + b) / 256 = bytesToNat t := by omega
    have hmod : (bytesToNat t * 256 + b) % 256 = b := by omega
    rw [hdiv, hmod, ih (fun x hx => hl x (by simp [hx]))]

theorem bitLenGo_zero (fuel : Nat) : bitLenGo fuel 0 = 0 := by
  cases fuel <;> simp [bitLenGo]

theorem bitLenGo_spec (fuel : Nat) :
    ∀ n, n < fuel → n ≠ 0 →
      2 ^ (bitLenGo fuel n - 1) ≤ n ∧ n < 2 ^ bitLenGo fuel n := by
  induction fuel with
  | zero => intro n h hn; omega
  | succ fuel ih =>
    intro n h hn
    rw [bitLenGo, if_neg hn]
    by_cases hq : n / 2 = 0
    · rw [hq, bitLenGo_zero]
      constructor
      · simpa using Nat.one_le_iff_ne_zero.mpr hn
      · have : n ≤ 1 := by omega
        calc n ≤ 1 := this
          _ < 2 ^ 1 := by norm_num
    · have hlt : n / 2 < fuel := by omega
      obtain ⟨h1, h2⟩ := ih (n / 2) hlt hq
      set k := bitLenGo fuel (n / 2) with hk
      have hk1 : k ≠ 0 := by
        intro h0
        rw [h0] at h2
        simp at h2
        omega
      constructor
      · have e1 : 2 ^ (k + 1 - 1) = 2 * 2 ^ (k - 1) := by
          have hk2 : k - 1 + 1 = k := by omega
          calc 2 ^ (k + 1 - 1) = 2 ^ k := by rw [Nat.add_sub_cancel]
            _ = 2 ^ (k - 1 + 1) := by rw [hk2]
            _ = 2 * 2 ^ (k - 1) := by rw [pow_succ]; ring
        rw [e1]
        omega
      · have e2 : 2 ^ (k + 1) = 2 * 2 ^ k := by rw [pow_succ]; ring
        rw [e2]
        omega

theorem bitLen_spec (n : Nat) (hn : n ≠ 0) :
    2 ^ (bitLen n - 1) ≤ n ∧ n < 2 ^ bitLen n :=
  bitLenGo_spec (n + 1) n (Nat.lt_succ_self n) hn

/-- Value round-trip of the minimal big-endian serialization. -/
theorem bytesToNat_natToBytesBE (n : Nat) : bytesToNat (natToBytesBE n) = n := by
  by_cases hn : n = 0
  · subst hn; rfl
  · obtain ⟨h1, h2⟩ := bitLen_spec n hn
    refine bytesToNat_toBytesFixed _ n ?_
    have h8 : bitLen n ≤ 8 * ((bitLen n + 7) / 8) := by omega
    calc n < 2 ^ bitLen n := h2
      _ ≤ 2 ^ (8 * ((bitLen n + 7) / 8)) := Nat.pow_le_pow_right (by norm_num) h8
      _ = 256 ^ ((bitLen n + 7) / 8) := by
          rw [pow_mul]; norm_num

/-- A byte string with a nonzero leading byte is exactly recovered by
`_base36_to_bytes`'s minimal serialization of its big-endian value. -/
theorem natToBytesBE_bytesToNat (l : List Nat) (hl : ∀ b ∈ l, b < 256)
    (hhead : l.headD 0 ≠ 0) :
    natToBytesBE (bytesToNat l) = l := by
  obtain ⟨b, t, rfl⟩ : ∃ b t, l = b :: t := by
    cases l with
    | nil => simp at hhead
    | cons b t => exact ⟨b, t, rfl⟩
  simp only [List.headD_cons] at hhead
  have hup : bytesToNat (b :: t) < 256 ^ (t.length + 1) := by
    simpa using bytesToNat_lt (b :: t) hl
  have hlow : 256 ^ t.length ≤ bytesToNat (b :: t) := bytesToNat_head_lower b t hhead
  have hv0 : bytesToNat (b :: t) ≠ 0 := by
    have : (0:Nat) < 256 ^ t.length := Nat.pos_pow_of_pos _ (by norm_num)
    omega
  obtain ⟨h1, h2⟩ := bitLen_spec _ hv0
  set v := bytesToNat (b :: t) with hv
  set bl := bitLen v with hbl
  have hbl0 : bl ≠ 0 := by
    intro h0
    rw [h0] at h2
    simp at h2
    omega
  have hup2 : 2 ^ (bl - 1) < 2 ^ (8 * (t.length + 1)) := by
    calc 2 ^ (bl - 1) ≤ v := h1
      _ < 256 ^ (t.length + 1) := hup
      _ = 2 ^ (8 * (t.length + 1)) := by rw [pow_mul]; norm_num
  have hlow2 : 2 ^ (8 * t.length) < 2 ^ bl := by
    calc 2 ^ (8 * t.length) = 256 ^ t.length := by rw [pow_mul]; norm_num
      _ ≤ v := hlow
      _ < 2 ^ bl := h2
  have hA : bl - 1 < 8 * (t.length + 1) :=
    (Nat.pow_lt_pow_iff_right (by norm_num)).mp hup2
  have hB : 8 * t.length < bl :=
    (Nat.pow_lt_pow_iff_right (by norm_num)).mp hlow2
  have hlen : (bitLen v + 7) / 8 = t.length + 1 := by omega
  rw [natToBytesBE, hlen]
  have := toBytesFixed_bytesToNat (b :: t) hl
  simpa using this

theorem natToBytesBE_length_le (n L : Nat) (h : n < 256 ^ L) :
    (natToBytesBE n).length ≤ L := by
  by_cases hn : n = 0
  · subst hn
    simp [natToBytesBE, bitLen, bitLenGo, toBytesFixed]
  · obtain ⟨h1, h2⟩ := bitLen_spec n hn
    have hup : 2 ^ (bitLen n - 1) < 2 ^ (8 * L) := by
      calc 2 ^ (bitLen n - 1) ≤ n := h1
        _ < 256 ^ L := h
        _ = 2 ^ (8 * L) := by rw [pow_mul]; norm_num
    have hA : bitLen n - 1 < 8 * L := (Nat.pow_lt_pow_iff_right (by norm_num)).mp hup
    have hbl0 : bitLen n ≠ 0 := by
      intro h0
      rw [h0] at h2
      simp at h2
      omega
    rw [natToBytesBE, toBytesFixed_length]
    omega

/-- C5: the base-36 codec encodes a byte sequence as its big-endian value in
digits `0-9A-Z` (empty/zero encodes to `"0"`), and decode returns the
minimal `(bit_length + 7) / 8`-byte big-endian serialization of the parsed
value, so the underlying integer value round-trips exactly. -/
theorem claim_C5_base36_codec (data : List Nat) (hdata : ∀ b ∈ data, b < 256) :
    bytes_to_base36 [] = ['0'] ∧
    base36_to_bytes (bytes_to_base36 data) = Except.ok (natToBytesBE (bytesToNat data)) ∧
    (natToBytesBE (bytesToNat data)).length = (bitLen (bytesToNat data) + 7) / 8 ∧
    bytesToNat (natToBytesBE (bytesToNat data)) = bytesToNat data := by
  refine ⟨rfl, ?_, ?_, bytesToNat_natToBytesBE _⟩
  · rw [bytes_to_base36, base36_to_bytes, from_base36_to_base36]
    rfl
  · rw [natToBytesBE, toBytesFixed_length]

theorem mapWithPos_length (f : Nat → Nat → Nat) :
    ∀ p l, (mapWithPos f p l).length = (l : List Nat).length := by
  intro p l
  induction l generalizing p with
  | nil => rfl
  | cons b t ih => simp [mapWithPos, ih]

theorem mapWithPos_mem_lt (f : Nat → Nat → Nat) (h : ∀ p b, f p b < 256) :
    ∀ p l, ∀ x ∈ mapWithPos f p l, x < 256 := by
  intro p l
  induction l generalizing p with
  | nil => intro x hx; simp [mapWithPos] at hx
  | cons b t ih =>
    intro x hx
    rcases List.mem_cons.mp hx with hx | hx
    · subst hx; exact h p b
    · exact ih (p + 1) x hx

/-- The forward per-byte transform always outputs a byte. -/
theorem forwardByte_lt (st : AnonState) (b p : Nat) : forwardByte st b p < 256 :=
  positional_bit_scramble_fwd_lt _ _ (bitwise_transform_byte_fwd_lt st b p)

/-- Mapping the inverse transform over a forward-transformed list, starting
from a common position, restores the list. -/
theorem mapWithPos_inv_fwd (st : AnonState)
    (hP : ∀ x ∈ st.primary_sequence, x < 256) :
    ∀ p l, (∀ b ∈ l, b < 256) →
      mapWithPos (fun pos byte => inverseByte st byte pos) p
        (mapWithPos (fun pos byte => forwardByte st byte pos) p l) = l := by
  intro p l
  induction l generalizing p with
  | nil => intro h; rfl
  | cons b t ih =>
    intro h
    simp only [mapWithPos]
    rw [inv_fwd_byte st b p (h b (by simp)) hP, ih (p + 1) (fun x hx => h x (by simp [hx]))]

theorem char_valid_range (c : Char) :
    c.toNat < 55296 ∨ (57344 ≤ c.toNat ∧ c.toNat < 1114112) := by
  have h := c.valid
  simp only [UInt32.isValidChar, Nat.isValidChar, Char.toNat] at h ⊢
  exact h

theorem utf8EncodeChar_mem_lt (c : Char) : ∀ b ∈ utf8EncodeChar c, b < 256 := by
  have hv := char_valid_range c
  intro b hb
  rw [utf8EncodeChar] at hb
  split_ifs at hb <;> simp at hb <;> omega

theorem utf8Encode_mem_lt (s : List Char) : ∀ b ∈ utf8Encode s, b < 256 := by
  induction s with
  | nil => intro b hb; simp [utf8Encode] at hb
  | cons c t ih =>
    intro b hb
    rw [utf8Encode] at hb
    rcases List.mem_append.mp hb with hb | hb
    · exact utf8EncodeChar_mem_lt c b hb
    · exact ih b hb

theorem utf8EncodeChar_ne_nil (c : Char) : utf8EncodeChar c ≠ [] := by
  rw [utf8EncodeChar]
  split_ifs <;> simp

theorem utf8Step_encodeChar (c : Char) (rest : List Nat) :
    utf8Step (utf8EncodeChar c ++ rest) = some (c, rest) := by
  have hv := char_valid_range c
  have hofn : Char.ofNat c.toNat = c := Char.ofNat_toNat c
  rw [utf8EncodeChar]
  rcases Nat.lt_or_ge c.toNat 128 with h1 | h1
  · rw [if_pos h1, List.singleton_append]
    simp only [utf8Step]
    rw [if_pos h1, hofn]
  rcases Nat.lt_or_ge c.toNat 2048 with h2 | h2
  · rw [if_neg (by omega), if_pos h2]
    simp only [List.cons_append, List.nil_append, utf8Step, utf8Take1]
    rw [if_neg (by omega), if_neg (by omega), if_pos (by omega), if_pos (by omega),
      if_pos (by omega)]
    have he : (192 + c.toNat / 64 - 192) * 64 + (128 + c.toNat % 64 - 128) = c.toNat := by omega
    rw [he, hofn]
  rcases Nat.lt_or_ge c.toNat 65536 with h3 | h3
  · rw [if_neg (by omega), if_neg (by omega), if_pos h3]
    simp only [List.cons_append, List.nil_append, utf8Step, utf8Take2]
    rw [if_neg (by omega), if_neg (by omega), if_neg (by omega), if_pos (by omega),
      if_pos (by omega), if_pos (by omega)]
    have he : (224 + c.toNat / 4096 - 224) * 4096 + (128 + c.toNat / 64 % 64 - 128) * 64 +
        (128 + c.toNat % 64 - 128) = c.toNat := by omega
    rw [he, hofn]
  · rw [if_neg (by omega), if_neg (by omega), if_neg (by omega)]
    simp only [List.cons_append, List.nil_append, utf8Step, utf8Take3]
    rw [if_neg (by omega), if_neg (by omega), if_neg (by omega), if_neg (by omega),
      if_pos (by omega), if_pos (by omega), if_pos (by omega)]
    have he : (240 + c.toNat / 262144 - 240) * 262144 + (128 + c.toNat / 4096 % 64 - 128) * 4096 +
        (128 + c.toNat / 64 % 64 - 128) * 64 + (128 + c.toNat % 64 - 128) = c.toNat := by omega
    rw [he, hofn]

theorem utf8DecodeGo_nil (fuel : Nat) : utf8DecodeGo fuel [] = some [] := by
  cases fuel <;> rfl

theorem utf8DecodeGo_step (fuel : Nat) (l : List Nat) (c : Char) (rest : List Nat)
    (hl : l ≠ []) (h : utf8Step l = some (c, rest)) :
    utf8DecodeGo (fuel + 1) l = (utf8DecodeGo fuel rest).map (fun cs => c :: cs) := by
  cases l with
  | nil => exact absurd rfl hl
  | cons b t => simp only [utf8DecodeGo, h]

theorem utf8DecodeGo_encode (s : List Char) :
    ∀ fuel, (utf8Encode s).length ≤ fuel → utf8DecodeGo fuel (utf8Encode s) = some s := by
  induction s with
  | nil => intro fuel h; exact utf8DecodeGo_nil fuel
  | cons c t ih =>
    intro fuel h
    obtain ⟨b0, tl, he⟩ : ∃ b0 tl, utf8EncodeChar c = b0 :: tl := by
      cases hEC : utf8EncodeChar c with
      | nil => exact absurd hEC (utf8EncodeChar_ne_nil c)
      | cons b0 tl => exact ⟨b0, tl, rfl⟩
    have hne : utf8Encode (c :: t) ≠ [] := by
      rw [utf8Encode, he]
      simp
    have hlen : (utf8Encode (c :: t)).length = tl.length + 1 + (utf8Encode t).length := by
      rw [utf8Encode, he]
      simp
      omega
    cases fuel with
    | zero => omega
    | succ fuel =>
      rw [utf8DecodeGo_step fuel _ c (utf8Encode t) hne
        (by rw [utf8Encode]; exact utf8Step_encodeChar c (utf8Encode t))]
      rw [ih fuel (by omega)]
      rfl

/-- UTF-8 decoding inverts UTF-8 encoding. -/
theorem utf8Decode_encode (s : List Char) : utf8Decode (utf8Encode s) = some s :=
  utf8DecodeGo_encode s _ le_rfl

theorem utf8Step_rest_length (l : List Nat) (c : Char) (rest : List Nat)
    (h : utf8Step l = some (c, rest)) : rest.length < l.length := by
  cases l with
  | nil => simp [utf8Step] at h
  | cons b1 t =>
    simp only [utf8Step] at h
    split_ifs at h with h1 h2 h3 h4 h5
    · simp only [Option.some_inj, Prod.mk.injEq] at h
      rw [← h.2]
      simp
    · cases t with
      | nil => simp [utf8Take1] at h
      | cons b2 t2 =>
        simp only [utf8Take1] at h
        split_ifs at h
        · simp only [Option.some_inj, Prod.mk.injEq] at h
          rw [← h.2]
          simp only [List.length_cons]
          omega
    · rcases t with _ | ⟨b2, _ | ⟨b3, t3⟩⟩
      · simp [utf8Take2] at h
      · simp [utf8Take2] at h
      · simp only [utf8Take2] at h
        split_ifs at h
        · simp only [Option.some_inj, Prod.mk.injEq] at h
          rw [← h.2]
          simp
          omega
    · rcases t with _ | ⟨b2, _ | ⟨b3, _ | ⟨b4, t4⟩⟩⟩
      · simp [utf8Take3] at h
      · simp [utf8Take3] at h
      · simp [utf8Take3] at h
      · simp only [utf8Take3] at h
        split_ifs at h
        · simp only [Option.some_inj, Prod.mk.injEq] at h
          rw [← h.2]
          simp
          omega

theorem utf8DecodeGo_length_le (fuel : Nat) :
    ∀ l cs, utf8DecodeGo fuel l = some cs → cs.length ≤ l.length := by
  induction fuel with
  | zero =>
    intro l cs h
    cases l with
    | nil =>
      simp only [utf8DecodeGo, Option.some_inj] at h
      rw [← h]
      simp
    | cons b t => simp [utf8DecodeGo] at h
  | succ fuel ih =>
    intro l cs h
    cases l with
    | nil =>
      simp only [utf8DecodeGo, Option.some_inj] at h
      rw [← h]
      simp
    | cons b t =>
      cases hstep : utf8Step (b :: t) with
      | none =>
        simp only [utf8DecodeGo, hstep] at h
        exact absurd h (by simp)
      | some pr =>
        obtain ⟨c, rest⟩ := pr
        simp only [utf8DecodeGo, hstep] at h
        rcases Option.map_eq_some'.mp h with ⟨cs', hcs', rfl⟩
        have h1 := utf8Step_rest_length _ _ _ hstep
        have h2 := ih rest cs' hcs'
        simp only [List.length_cons] at h1 ⊢
        omega

/-- A decoded string never has more characters than its byte count. -/
theorem utf8Decode_length_le (l : List Nat) (cs : List Char)
    (h : utf8Decode l = some cs) : cs.length ≤ l.length :=
  utf8DecodeGo_length_le l.length l cs h

/-- Witness for C5 at a concrete byte sequence. -/
theorem toDecGo_zero (fuel : Nat) (acc : List Char) : toDecGo fuel 0 acc = acc := by
  cases fuel <;> simp [toDecGo]

theorem toDecGo_append (fuel : Nat) :
    ∀ n acc, toDecGo fuel n acc = toDecGo fuel n [] ++ acc := by
  induction fuel with
  | zero => intro n acc; simp [toDecGo]
  | succ fuel ih =>
    intro n acc
    by_cases hn : n = 0
    · simp [toDecGo, hn]
    · rw [toDecGo, toDecGo, if_neg hn, if_neg hn, ih (n / 10), ih (n / 10) [_]]
      simp

theorem parseNatGo_append (xs : List Char) :
    ∀ ys acc, parseNatGo (xs ++ ys) acc = (parseNatGo xs acc).bind (parseNatGo ys) := by
  induction xs with
  | nil => intro ys acc; simp [parseNatGo]
  | cons c t ih =>
    intro ys acc
    simp only [List.cons_append, parseNatGo]
    cases decDigitVal c with
    | none => rfl
    | some v => exact ih ys (acc * 10 + v)

theorem decDigitVal_decDigitChar : ∀ d < 10, decDigitVal (decDigitChar d) = some d := by
  decide

theorem parseNatGo_toDecGo (fuel : Nat) :
    ∀ n, n < 10 ^ fuel → n ≠ 0 → parseNatGo (toDecGo fuel n []) 0 = some n := by
  induction fuel with
  | zero => intro n hlt hn; omega
  | succ fuel ih =>
    intro n hlt hn
    rw [toDecGo, if_neg hn, toDecGo_append]
    by_cases hq : n / 10 = 0
    · rw [hq, toDecGo_zero]
      simp only [List.nil_append, parseNatGo,
        decDigitVal_decDigitChar (n % 10) (Nat.mod_lt _ (by norm_num))]
      have : 0 * 10 + n % 10 = n := by omega
      rw [this]
    · rw [parseNatGo_append, ih (n / 10) (by rw [pow_succ] at hlt; omega) hq]
      simp only [Option.some_bind, parseNatGo,
        decDigitVal_decDigitChar (n % 10) (Nat.mod_lt _ (by norm_num))]
      have : n / 10 * 10 + n % 10 = n := by omega
      rw [this]

theorem toDecGo_ne_nil (fuel n : Nat) (hn : n ≠ 0) : toDecGo (fuel + 1) n [] ≠ [] := by
  rw [toDecGo, if_neg hn, toDecGo_append]
  simp

theorem natToDecStr_ne_nil (n : Nat) : natToDecStr n ≠ [] := by
  by_cases hn : n = 0
  · subst hn; simp [natToDecStr]
  · rw [natToDecStr, if_neg hn]; exact toDecGo_ne_nil n n hn

/-- Round-trip of the decimal rendering of a natural number. -/
theorem parseNat_natToDecStr (n : Nat) : parseNat (natToDecStr n) = some n := by
  by_cases hn : n = 0
  · subst hn; rfl
  · rw [natToDecStr, if_neg hn, parseNat,
      if_neg (by simpa using toDecGo_ne_nil n n hn)]
    have hlt : n < 10 ^ (n + 1) :=
      lt_of_lt_of_le (Nat.lt_two_pow n)
        (le_trans (Nat.pow_le_pow_left (by norm_num) n) (Nat.pow_le_pow_right (by norm_num) (Nat.le_succ n)))
    rw [parseNatGo_toDecGo (n + 1) n hlt hn]

theorem toDecGo_digits (fuel : Nat) :
    ∀ n acc, (∀ c ∈ acc, '0' ≤ c ∧ c ≤ '9') →
      ∀ c ∈ toDecGo fuel n acc, '0' ≤ c ∧ c ≤ '9' := by
  induction fuel with
  | zero => intro n acc hacc; simpa [toDecGo] using hacc
  | succ fuel ih =>
    intro n acc hacc
    by_cases hn : n = 0
    · simpa [toDecGo, hn] using hacc
    · rw [toDecGo, if_neg hn]
      refine ih (n / 10) _ ?_
      intro c hc
      rcases List.mem_cons.mp hc with hc | hc
      · subst hc
        have : n % 10 < 10 := Nat.mod_lt _ (by norm_num)
        revert this
        generalize n % 10 = d
        intro hd
        interval_cases d <;> exact ⟨by decide, by decide⟩
      · exact hacc c hc

theorem natToDecStr_digits (n : Nat) : ∀ c ∈ natToDecStr n, '0' ≤ c ∧ c ≤ '9' := by
  by_cases hn : n = 0
  · subst hn
    intro c hc
    rw [natToDecStr, if_pos rfl, List.mem_singleton] at hc
    subst hc
    exact ⟨by decide, by decide⟩
  · rw [natToDecStr, if_neg hn]
    exact toDecGo_digits (n + 1) n [] (by simp)

theorem parseInt_natToDecStr (n : Nat) : parseInt (natToDecStr n) = Except.ok (n : Int) := by
  cases hct : natToDecStr n with
  | nil => exact absurd hct (natToDecStr_ne_nil n)
  | cons c t =>
    have hd := natToDecStr_digits n c (by rw [hct]; simp)
    have hminus : ¬(c = '-') := by
      intro h
      rw [h] at hd
      revert hd
      decide
    have hplus : ¬(c = '+') := by
      intro h
      rw [h] at hd
      revert hd
      decide
    have hp : parseNat (c :: t) = some n := by rw [← hct]; exact parseNat_natToDecStr n
    simp only [parseInt, if_neg hminus, if_neg hplus, hp]

/-- Round-trip of Python `int(str(i))`. -/
theorem parseInt_intToStr (i : Int) : parseInt (intToStr i) = Except.ok i := by
  rw [intToStr]
  by_cases hi : i < 0
  · rw [if_pos hi]
    have hp : parseNat (natToDecStr i.natAbs) = some i.natAbs := parseNat_natToDecStr _
    simp only [parseInt, if_pos rfl, hp]
    have : -(i.natAbs : Int) = i := by omega
    rw [this]
    simp
  · rw [if_neg hi, parseInt_natToDecStr]
    congr 1
    omega

theorem splitUndGo_no_und (l : List Char) :
    ∀ cur, '_' ∉ l → splitUndGo l cur = [cur.reverse ++ l] := by
  induction l with
  | nil => intro cur h; simp [splitUndGo]
  | cons c t ih =>
    intro cur h
    have hc : ¬(c = '_') := by
      intro hh
      exact h (by rw [hh]; simp)
    rw [splitUndGo, if_neg hc, ih (c :: cur) (fun hm => h (List.mem_cons_of_mem _ hm))]
    simp

theorem splitUnd_create_token (m : Char) (d : List Char) (hm : m ≠ '_') (hd : '_' ∉ d) :
    splitUnd (create_token m d) = [['T', 'K', 'N'], ['V', '1'], m :: d] := by
  show splitUndGo ('T' :: 'K' :: 'N' :: '_' :: 'V' :: '1' :: '_' :: m :: d) [] = _
  rw [splitUndGo, if_neg (by decide), splitUndGo, if_neg (by decide), splitUndGo,
    if_neg (by decide), splitUndGo, if_pos rfl, splitUndGo, if_neg (by decide), splitUndGo,
    if_neg (by decide), splitUndGo, if_pos rfl, splitUndGo_no_und _ _
      (by
        intro hmem
        rcases List.mem_cons.mp hmem with hmem | hmem
        · exact hm hmem.symm
        · exact hd hmem)]
  simp

/-- Framing round-trip: `_parse_token` recovers the marker and payload of a
`_create_token` output whenever neither contains an underscore. -/
theorem parse_token_create (m : Char) (d : List Char) (hm : m ≠ '_') (hd : '_' ∉ d) :
    parse_token (create_token m d) = Except.ok (m, d) := by
  simp only [parse_token, splitUnd_create_token m d hm hd]
  simp [tokenPrefTKN, TOKEN_VERSION]

/-- Structural soundness of `_parse_token`: success forces exactly three
`_`-separated parts with the fixed prefix and version. -/
theorem parse_token_ok_shape (t : List Char) (m : Char) (d : List Char)
    (h : parse_token t = Except.ok (m, d)) :
    (splitUnd t).length = 3 ∧ (splitUnd t).getD 0 [] = tokenPrefTKN ∧
      (splitUnd t).getD 1 [] = 'V' :: TOKEN_VERSION ∧
      (splitUnd t).getD 2 [] = m :: d := by
  simp only [parse_token] at h
  by_cases h1 : (splitUnd t).length ≠ 3 ∨ (splitUnd t).getD 0 [] ≠ tokenPrefTKN
  · rw [if_pos h1] at h
    exact absurd h (by simp)
  · rw [if_neg h1] at h
    push_neg at h1
    cases hc : (splitUnd t).getD 2 [] with
    | nil =>
      simp only [hc] at h
      exact absurd h (by simp)
    | cons m' d' =>
      simp only [hc] at h
      by_cases h2 : (splitUnd t).getD 1 [] ≠ 'V' :: TOKEN_VERSION
      · rw [if_pos h2] at h
        exact absurd h (by simp)
      · rw [if_neg h2] at h
        simp only [Except.ok.injEq, Prod.mk.injEq] at h
        push_neg at h2
        exact ⟨h1.1, h1.2, h2, by rw [h.1, h.2]⟩

/-- C4 counterexample: the claim says token parsing fails with a format
error on the missing-payload token `"TKN_V1_S"`; in the code,
`_parse_token` accepts it and returns the marker `'S'` with an empty
payload. -/
theorem claim_C4_counterexample :
    parse_token "TKN_V1_S".toList = Except.ok ('S', []) := by
  decide

/-- C4 (amended): `_parse_token` splits on `_` and fails unless there are
exactly 3 parts with prefix `TKN` and version `V1` (an empty third part is
also rejected, via the failed indexing `combined_data[0]`); but a token
whose third part is a bare marker, such as `"TKN_V1_S"`, parses
successfully with an empty payload, and deanonymization of it fails only
later, in the base-36 decode of the empty payload. -/
theorem claim_C4_unwrap_validation (t : List Char) (m : Char) (d : List Char) :
    (parse_token t = Except.ok (m, d) →
      (splitUnd t).length = 3 ∧ (splitUnd t).getD 0 [] = tokenPrefTKN ∧
        (splitUnd t).getD 1 [] = 'V' :: TOKEN_VERSION ∧
        (splitUnd t).getD 2 [] = m :: d) ∧
    parse_token "TKN_V1_S".toList = Except.ok ('S', []) ∧
    (∀ st : AnonState,
      deanonymize st "TKN_V1_S".toList =
        Except.error "invalid literal for int() with base 36") := by
  refine ⟨parse_token_ok_shape t m d, claim_C4_counterexample, fun st => rfl⟩

/-- Witness for C4 (amended) at a concrete parsed token. -/
theorem claim_C4_witness :
    ((splitUnd "TKN_V1_Sabc".toList).length = 3 ∧
      (splitUnd "TKN_V1_Sabc".toList).getD 0 [] = tokenPrefTKN ∧
      (splitUnd "TKN_V1_Sabc".toList).getD 1 [] = 'V' :: TOKEN_VERSION ∧
      (splitUnd "TKN_V1_Sabc".toList).getD 2 [] = 'S' :: "abc".toList) ∧
    parse_token "TKN_V1_S".toList = Except.ok ('S', []) ∧
    deanonymize ⟨[5, 17], [9, 33]⟩ "TKN_V1_S".toList =
      Except.error "invalid literal for int() with base 36" :=
  ⟨(claim_C4_unwrap_validation "TKN_V1_Sabc".toList 'S' "abc".toList).1 (by decide),
    (claim_C4_unwrap_validation "TKN_V1_Sabc".toList 'S' "abc".toList).2.1,
    (claim_C4_unwrap_validation "TKN_V1_Sabc".toList 'S' "abc".toList).2.2 ⟨[5, 17], [9, 33]⟩⟩

/-- C6: boolean serialization is dispatched before the integer case: `True`
serializes to text `"1"` with marker `B`, integer `1` serializes to the
same text `"1"` but with marker `I`, and the two tokens always differ (at
the marker character), for any keystream state. -/
theorem claim_C6_bool_marker (st : AnonState) :
    serialize_with_type (PValue.bool true) = (['1'], DataType.BOOL) ∧
    serialize_with_type (PValue.int 1) = (['1'], DataType.INT) ∧
    anonymize st (PValue.bool true) ≠ anonymize st (PValue.int 1) := by
  refine ⟨rfl, by decide, ?_⟩
  intro h
  simp only [anonymize, serialize_with_type, create_token, tokenPrefTKN, TOKEN_VERSION,
    List.cons_append, List.nil_append, List.cons.injEq] at h
  exact absurd h.2.2.2.2.2.2.2.1 (by decide)

theorem base36Alphabet_ascii : ∀ c ∈ base36Alphabet, c.toNat < 128 := by
  decide

/-- C8: every token produced by `anonymize` has the shape
`TKN_V1_<M><PAYLOAD>` with `<M>` one of the six type markers and
`<PAYLOAD>` a nonempty string of uppercase base-36 digits; every character
of the token is ASCII. -/
theorem claim_C8_token_shape (st : AnonState) (v : PValue) :
    ∃ payload : List Char,
      anonymize st v = "TKN_V1_".toList ++ (serialize_with_type v).2.value :: payload ∧
      (serialize_with_type v).2.value ∈ ['S', 'I', 'F', 'B', 'D', 'N'] ∧
      payload ≠ [] ∧
      (∀ c ∈ payload, c ∈ base36Alphabet) ∧
      (∀ c ∈ anonymize st v, c.toNat < 128) := by
  refine ⟨bitwise_anonymize st
    ((serialize_with_type v).2.value :: ':' :: (serialize_with_type v).1),
    rfl, ?_, to_base36_ne_nil _, to_base36_subset _, ?_⟩
  · cases v <;> simp [serialize_with_type, DataType.value]
  · intro c hc
    have he : anonymize st v = "TKN_V1_".toList ++ (serialize_with_type v).2.value ::
        bitwise_anonymize st
          ((serialize_with_type v).2.value :: ':' :: (serialize_with_type v).1) := rfl
    rw [he] at hc
    rcases List.mem_append.mp hc with hc | hc
    · revert hc
      have : ∀ c ∈ "TKN_V1_".toList, c.toNat < 128 := by decide
      exact this c
    · rcases List.mem_cons.mp hc with hc | hc
      · subst hc
        cases v <;> simp only [serialize_with_type, DataType.value] <;> decide
      · exact base36Alphabet_ascii c (to_base36_subset _ c hc)

/-- C10: for any keystream state, the minimal tokens `"TKN_V1_S0"` and
`"TKN_V1_N0"` deanonymize without error to the empty string and to null
respectively: the payload `"0"` base-36-decodes to the empty byte string,
whose inverse transform, version-byte strip, UTF-8 decode and
deserialization all go through on empty data. -/
theorem claim_C10_zero_payload (st : AnonState) :
    deanonymize st "TKN_V1_S0".toList = Except.ok (PValue.str []) ∧
    deanonymize st "TKN_V1_N0".toList = Except.ok PValue.none ∧
    base36_to_bytes ['0'] = Except.ok [] :=
  ⟨rfl, rfl, rfl⟩

theorem digestChain_zero (hash : List Nat → List Nat) (key cur : List Nat) :
    digestChain hash key cur 0 = [] := rfl

theorem generateGo_take (hash : List Nat → List Nat) (key : List Nat) (len dlen : Nat)
    (hd : ∀ m, (hash m).length = dlen) :
    ∀ fuel acc cur, len ≤ acc.length + fuel * dlen →
      (generateGo hash key len fuel acc cur).take len =
        (acc ++ digestChain hash key cur fuel).take len := by
  intro fuel
  induction fuel with
  | zero =>
    intro acc cur h
    simp [generateGo, digestChain_zero]
  | succ fuel ih =>
    intro acc cur h
    rw [generateGo, digestChain]
    by_cases hlt : acc.length < len
    · rw [if_pos hlt]
      have hmul : (fuel + 1) * dlen = fuel * dlen + dlen := by ring
      rw [ih (acc ++ hash (cur ++ key)) (hash (cur ++ key))
        (by rw [List.length_append, hd]; omega)]
      rw [List.append_assoc]
    · rw [if_neg hlt]
      rw [List.take_append_of_le_length (by omega)]

theorem generateGo_length (hash : List Nat → List Nat) (key : List Nat) (len dlen : Nat)
    (hd : ∀ m, (hash m).length = dlen) :
    ∀ fuel acc cur, len ≤ acc.length + fuel * dlen →
      len ≤ (generateGo hash key len fuel acc cur).length := by
  intro fuel
  induction fuel with
  | zero =>
    intro acc cur h
    simpa [generateGo] using h
  | succ fuel ih =>
    intro acc cur h
    rw [generateGo]
    by_cases hlt : acc.length < len
    · rw [if_pos hlt]
      have hmul : (fuel + 1) * dlen = fuel * dlen + dlen := by ring
      exact ih (acc ++ hash (cur ++ key)) (hash (cur ++ key))
        (by rw [List.length_append, hd]; omega)
    · rw [if_neg hlt]
      omega

/-- C7: for any hash function with nonempty fixed-size digests,
`_generate_sequence` returns exactly `length` bytes (2048 by default), is
deterministic, and equals the first `length` bytes of the digest chain
`d1 = hash(key ++ key)`, `d(i+1) = hash(d(i) ++ key)` described by the
spec. -/
theorem claim_C7_keystream_generator (hash : List Nat → List Nat) (key : List Nat)
    (len dlen : Nat) (hd : ∀ m, (hash m).length = dlen) (hpos : 0 < dlen) :
    (generate_sequence hash key len).length = len ∧
    generate_sequence hash key len = keystreamSpec hash key len ∧
    generate_sequence hash key = generate_sequence hash key 2048 ∧
    generate_sequence hash key len = generate_sequence hash key len := by
  have hfuel : len ≤ 0 + (len + 1) * dlen := by
    have h1 : len + 1 ≤ (len + 1) * dlen := Nat.le_mul_of_pos_right _ hpos
    omega
  refine ⟨?_, ?_, rfl, rfl⟩
  · rw [generate_sequence, List.length_take]
    have := generateGo_length hash key len dlen hd (len + 1) [] key (by simpa using hfuel)
    omega
  · rw [generate_sequence, keystreamSpec,
      generateGo_take hash key len dlen hd (len + 1) [] key (by simpa using hfuel)]
    simp

/-- Witness for C7 with a concrete toy hash of digest size 2. -/
theorem claim_C7_witness :
    ((generate_sequence (fun m => [m.length % 256, 7]) [1, 2] 5).length = 5 ∧
      generate_sequence (fun m => [m.length % 256, 7]) [1, 2] 5 =
        keystreamSpec (fun m => [m.length % 256, 7]) [1, 2] 5 ∧
      generate_sequence (fun m => [m.length % 256, 7]) [1, 2] =
        generate_sequence (fun m => [m.length % 256, 7]) [1, 2] 2048 ∧
      generate_sequence (fun m => [m.length % 256, 7]) [1, 2] 5 =
        generate_sequence (fun m => [m.length % 256, 7]) [1, 2] 5) :=
  claim_C7_keystream_generator (fun m => [m.length % 256, 7]) [1, 2] 5 2
    (fun m => rfl) (by decide)

theorem digitVals_append (xs : List Char) :
    ∀ ys, digitVals (xs ++ ys) =
      (digitVals xs).bind (fun a => (digitVals ys).map (a ++ ·)) := by
  induction xs with
  | nil =>
    intro ys
    simp only [List.nil_append, digitVals, Option.some_bind]
    cases digitVals ys <;> simp
  | cons c t ih =>
    intro ys
    simp only [List.cons_append, digitVals, List.append_eq]
    cases decDigitVal c with
    | none => rfl
    | some v =>
      dsimp only
      rw [ih ys]
      cases digitVals t with
      | none => rfl
      | some a =>
        cases digitVals ys with
        | none => rfl
        | some b => simp

theorem digitVals_decDigitsChars (dg : List Nat) (h : ∀ d ∈ dg, d < 10) :
    digitVals (decDigitsChars dg) = some dg := by
  induction dg with
  | nil => rfl
  | cons d t ih =>
    have hd : d < 10 := h d (by simp)
    simp only [decDigitsChars, List.map_cons, digitVals, decDigitVal_decDigitChar d hd]
    have := ih (fun x hx => h x (by simp [hx]))
    rw [show digitVals (List.map decDigitChar t) = digitVals (decDigitsChars t) from rfl, this]
    rfl

theorem decDigitsChars_bounds (dg : List Nat) (h : ∀ d ∈ dg, d < 10) :
    ∀ c ∈ decDigitsChars dg, '0' ≤ c ∧ c ≤ '9' := by
  intro c hc
  rw [decDigitsChars, List.mem_map] at hc
  obtain ⟨d, hd, rfl⟩ := hc
  have hdd : d < 10 := h d hd
  interval_cases d <;> exact ⟨by decide, by decide⟩

theorem no_special_mem (ch : Char) (hch : ¬('0' ≤ ch ∧ ch ≤ '9')) (l : List Char)
    (hl : ∀ c ∈ l, '0' ≤ c ∧ c ≤ '9') : ch ∉ l :=
  fun hm => hch (hl ch hm)

theorem splitAtChar_not_mem (sep : Char) (l : List Char) (h : sep ∉ l) :
    splitAtChar sep l = Option.none := by
  induction l with
  | nil => rfl
  | cons c t ih =>
    have hc : ¬(c = sep) := by
      intro hh
      exact h (by rw [hh]; simp)
    rw [splitAtChar, if_neg hc, ih (fun hm => h (List.mem_cons_of_mem _ hm))]
    rfl

theorem splitAtChar_append (sep : Char) (xs ys : List Char) (h : sep ∉ xs) :
    splitAtChar sep (xs ++ sep :: ys) = some (xs, ys) := by
  induction xs with
  | nil => simp [splitAtChar]
  | cons c t ih =>
    have hc : ¬(c = sep) := by
      intro hh
      exact h (by rw [hh]; simp)
    simp only [List.cons_append, splitAtChar, if_neg hc, List.append_eq,
      ih (fun hm => h (List.mem_cons_of_mem _ hm))]
    rfl

theorem digitVals_replicate_zero (k : Nat) :
    digitVals (List.replicate k '0') = some (List.replicate k 0) := by
  induction k with
  | zero => rfl
  | succ k ih =>
    simp only [List.replicate_succ, digitVals,
      show decDigitVal '0' = some 0 from rfl, ih]
    rfl

theorem strip_replicate_zero (k : Nat) (l : List Nat) (hne : l ≠ []) :
    stripLeadingZeros (List.replicate k 0 ++ l) = stripLeadingZeros l := by
  induction k with
  | zero => simp
  | succ k ih =>
    cases hrep : List.replicate k 0 ++ l with
    | nil =>
      rcases List.append_eq_nil.mp hrep with ⟨_, h2⟩
      exact absurd h2 hne
    | cons c t =>
      rw [List.replicate_succ, List.cons_append, hrep]
      have : stripLeadingZeros (0 :: c :: t) = stripLeadingZeros (c :: t) := by
        simp [stripLeadingZeros]
      rw [this, ← hrep, ih]

theorem strip_canonical (l : List Nat) (hne : l ≠ []) (h : l.headD 0 ≠ 0 ∨ l = [0]) :
    stripLeadingZeros l = l := by
  rcases h with h | h
  · cases l with
    | nil => exact absurd rfl hne
    | cons x t =>
      simp only [List.headD_cons] at h
      cases t with
      | nil => cases x with
        | zero => exact absurd rfl h
        | succ x' => rfl
      | cons y t' =>
        cases x with
        | zero => exact absurd rfl h
        | succ x' => simp [stripLeadingZeros]
  · subst h
    rfl

theorem parseDecimal_sign (sign : Bool) (c : Char) (t : List Char)
    (h0 : c ≠ '-') (h1 : c ≠ '+') :
    parseDecimal (if sign then '-' :: (c :: t) else (c :: t)) =
      parseDecimalBody sign (c :: t) := by
  cases sign
  · simp only [Bool.false_eq_true, if_false, parseDecimal, if_neg h0, if_neg h1]
  · simp only [if_true, parseDecimal, if_pos rfl]

/-- Round-trip of `Decimal(str(d))` for canonical decimal values. -/
theorem parseDecimal_decimalToStr (d : PDecimal) (hv : d.Valid) :
    parseDecimal (decimalToStr d) = Except.ok d := by
  obtain ⟨sgn, dgs, ex⟩ := d
  obtain ⟨hne, hlt, hcanon⟩ := hv
  simp only at hne hlt hcanon
  have hdg : digitVals (decDigitsChars dgs) = some dgs := digitVals_decDigitsChars _ hlt
  have hbounds := decDigitsChars_bounds dgs hlt
  have hstrip : stripLeadingZeros dgs = dgs := strip_canonical _ hne hcanon
  obtain ⟨d0, dtl, hdgs⟩ : ∃ d0 dtl, dgs = d0 :: dtl := by
    cases dgs with
    | nil => exact absurd rfl hne
    | cons d0 dtl => exact ⟨d0, dtl, rfl⟩
  have hLpos : 1 ≤ dgs.length := by rw [hdgs]; simp
  have hc0 : '0' ≤ decDigitChar d0 ∧ decDigitChar d0 ≤ '9' := by
    refine decDigitsChars_bounds dgs hlt _ ?_
    rw [hdgs, decDigitsChars]
    simp
  have hEd : ¬('0' ≤ 'E' ∧ 'E' ≤ '9') := by decide
  have hed : ¬('0' ≤ 'e' ∧ 'e' ≤ '9') := by decide
  have hdotd : ¬('0' ≤ '.' ∧ '.' ≤ '9') := by decide
  have hEnotdg : 'E' ∉ decDigitsChars dgs := no_special_mem _ hEd _ hbounds
  have henotdg : 'e' ∉ decDigitsChars dgs := no_special_mem _ hed _ hbounds
  have hdotnotdg : '.' ∉ decDigitsChars dgs := no_special_mem _ hdotd _ hbounds
  have hdglen : (decDigitsChars dgs).length = dgs.length := by
    rw [decDigitsChars]
    simp
  rw [decimalToStr]
  simp only
  by_cases hA : (ex ≤ 0 ∧ -6 ≤ ex + (dgs.length : Int) - 1)
  · rw [if_pos hA]
    by_cases hE0 : ex = 0
    · -- plain digits, exponent 0
      rw [if_pos hE0]
      have hhead : decDigitsChars dgs = decDigitChar d0 :: decDigitsChars dtl := by
        rw [hdgs, decDigitsChars, List.map_cons]
        rfl
      rw [hhead, parseDecimal_sign sgn _ _
        (by intro he; rw [he] at hc0; revert hc0; decide)
        (by intro he; rw [he] at hc0; revert hc0; decide), ← hhead]
      simp only [parseDecimalBody, splitAtChar_not_mem 'E' _ hEnotdg,
        splitAtChar_not_mem 'e' _ henotdg, splitAtChar_not_mem '.' _ hdotnotdg, hdg,
        show digitVals [] = some [] from rfl]
      rw [if_neg (by rw [hdgs]; simp)]
      simp [hstrip, hE0]
    · rw [if_neg hE0]
      by_cases hAn : ex + (dgs.length : Int) - 1 < 0
      · -- 0.00ddd form
        rw [if_pos hAn]
        have hk : ∀ c, c ∈ '0' :: '.' ::
            (List.replicate ((-(ex + (dgs.length : Int) - 1)).toNat - 1) '0' ++
              decDigitsChars dgs) →
            c = '0' ∨ c = '.' ∨ ('0' ≤ c ∧ c ≤ '9') := by
          intro c hm
          rcases List.mem_cons.mp hm with hm | hm
          · exact Or.inl hm
          rcases List.mem_cons.mp hm with hm | hm
          · exact Or.inr (Or.inl hm)
          rcases List.mem_append.mp hm with hm | hm
          · exact Or.inl (List.eq_of_mem_replicate hm)
          · exact Or.inr (Or.inr (hbounds c hm))
        have hEnot : 'E' ∉ '0' :: '.' ::
            (List.replicate ((-(ex + (dgs.length : Int) - 1)).toNat - 1) '0' ++
              decDigitsChars dgs) := by
          intro hm
          rcases hk 'E' hm with h | h | h
          · exact absurd h (by decide)
          · exact absurd h (by decide)
          · exact hEd h
        have henot : 'e' ∉ '0' :: '.' ::
            (List.replicate ((-(ex + (dgs.length : Int) - 1)).toNat - 1) '0' ++
              decDigitsChars dgs) := by
          intro hm
          rcases hk 'e' hm with h | h | h
          · exact absurd h (by decide)
          · exact absurd h (by decide)
          · exact hed h
        rw [parseDecimal_sign sgn _ _ (by decide) (by decide)]
        simp only [parseDecimalBody, splitAtChar_not_mem 'E' _ hEnot,
          splitAtChar_not_mem 'e' _ henot]
        rw [show ('0' : Char) :: '.' ::
            (List.replicate ((-(ex + (dgs.length : Int) - 1)).toNat - 1) '0' ++
              decDigitsChars dgs) =
            ['0'] ++ '.' ::
            (List.replicate ((-(ex + (dgs.length : Int) - 1)).toNat - 1) '0' ++
              decDigitsChars dgs) from rfl,
          splitAtChar_append '.' _ _ (by decide)]
        simp only [digitVals_append, digitVals_replicate_zero, hdg,
          show digitVals ['0'] = some [0] from rfl, Option.some_bind, Option.map_some']
        rw [if_neg (by simp)]
        have hcoeff : stripLeadingZeros
            ([0] ++ (List.replicate ((-(ex + (dgs.length : Int) - 1)).toNat - 1) 0 ++ dgs)) =
            dgs := by
          rw [show ([0] : List Nat) ++
              (List.replicate ((-(ex + (dgs.length : Int) - 1)).toNat - 1) 0 ++ dgs) =
              List.replicate (((-(ex + (dgs.length : Int) - 1)).toNat - 1) + 1) 0 ++ dgs by
                simp [List.replicate_succ],
            strip_replicate_zero _ _ hne, hstrip]
        rw [hcoeff]
        have hexp : (0 : Int) -
            ((List.replicate ((-(ex + (dgs.length : Int) - 1)).toNat - 1) 0 ++ dgs).length : Int) =
            ex := by
          rw [List.length_append, List.length_replicate]
          have h1 : (1 : Int) ≤ -(ex + (dgs.length : Int) - 1) := by omega
          omega
        rw [hexp]
      · -- d.ddd form with the point inside
        rw [if_neg hAn]
        set a : Nat := (ex + (dgs.length : Int) - 1).toNat with ha
        have haL : a + 1 < dgs.length := by
          have hex1 : ex ≤ -1 := by omega
          omega
        have htake : (decDigitsChars dgs).take (a + 1) =
            decDigitsChars (dgs.take (a + 1)) := by
          rw [decDigitsChars, decDigitsChars, List.map_take]
        have hdrop : (decDigitsChars dgs).drop (a + 1) =
            decDigitsChars (dgs.drop (a + 1)) := by
          rw [decDigitsChars, decDigitsChars, List.map_drop]
        have htakedigits : ∀ c ∈ (decDigitsChars dgs).take (a + 1), '0' ≤ c ∧ c ≤ '9' :=
          fun c hc => hbounds c (List.take_subset _ _ hc)
        have hEnot : 'E' ∉ (decDigitsChars dgs).take (a + 1) ++
            '.' :: (decDigitsChars dgs).drop (a + 1) := by
          intro hm
          rcases List.mem_append.mp hm with hm | hm
          · exact hEd (htakedigits _ hm)
          rcases List.mem_cons.mp hm with hm | hm
          · exact absurd hm (by decide)
          · exact hEd (hbounds _ (List.drop_subset _ _ hm))
        have henot : 'e' ∉ (decDigitsChars dgs).take (a + 1) ++
            '.' :: (decDigitsChars dgs).drop (a + 1) := by
          intro hm
          rcases List.mem_append.mp hm with hm | hm
          · exact hed (htakedigits _ hm)
          rcases List.mem_cons.mp hm with hm | hm
          · exact absurd hm (by decide)
          · exact hed (hbounds _ (List.drop_subset _ _ hm))
        obtain ⟨c0, t0, hct⟩ : ∃ c0 t0, (decDigitsChars dgs).take (a + 1) ++
            '.' :: (decDigitsChars dgs).drop (a + 1) = c0 :: t0 ∧ c0 = decDigitChar d0 := by
          rw [hdgs, decDigitsChars, List.map_cons, List.take_succ_cons, List.cons_append]
          exact ⟨decDigitChar d0, _, rfl, rfl⟩
        obtain ⟨hct, hc0eq⟩ := hct
        rw [hct, parseDecimal_sign sgn _ _
          (by rw [hc0eq]; intro he; rw [he] at hc0; revert hc0; decide)
          (by rw [hc0eq]; intro he; rw [he] at hc0; revert hc0; decide), ← hct]
        simp only [parseDecimalBody, splitAtChar_not_mem 'E' _ hEnot,
          splitAtChar_not_mem 'e' _ henot,
          splitAtChar_append '.' _ _ (no_special_mem _ hdotd _ htakedigits)]
        simp only [htake, hdrop,
          digitVals_decDigitsChars _ (fun x hx => hlt x (List.take_subset _ _ hx)),
          digitVals_decDigitsChars _ (fun x hx => hlt x (List.drop_subset _ _ hx))]
        rw [if_neg (by
          intro hempty
          have h1 := hempty.1
          rw [hdgs, List.take_succ_cons] at h1
          simp at h1)]
        rw [List.take_append_drop, hstrip]
        have hexp : (0 : Int) - ((dgs.drop (a + 1)).length : Int) = ex := by
          rw [List.length_drop]
          omega
        rw [hexp]
  · -- scientific notation
    rw [if_neg hA]
    set adj : Int := ex + (dgs.length : Int) - 1 with hadj
    have hpre : ∀ c ∈ (decDigitsChars dgs).take 1 ++
        (if 1 < (decDigitsChars dgs).length then '.' :: (decDigitsChars dgs).drop 1 else []),
        ('0' ≤ c ∧ c ≤ '9') ∨ c = '.' := by
      intro c hm
      rcases List.mem_append.mp hm with hm | hm
      · exact Or.inl (hbounds c (List.take_subset _ _ hm))
      · by_cases h1 : 1 < (decDigitsChars dgs).length
        · rw [if_pos h1] at hm
          rcases List.mem_cons.mp hm with hm | hm
          · exact Or.inr hm
          · exact Or.inl (hbounds c (List.drop_subset _ _ hm))
        · rw [if_neg h1] at hm
          simp at hm
    have hEnot : 'E' ∉ (decDigitsChars dgs).take 1 ++
        (if 1 < (decDigitsChars dgs).length then '.' :: (decDigitsChars dgs).drop 1 else []) := by
      intro hm
      rcases hpre 'E' hm with h | h
      · exact hEd h
      · exact absurd h (by decide)
    obtain ⟨c0, t0, hct, hc0eq⟩ : ∃ c0 t0, (decDigitsChars dgs).take 1 ++
        ((if 1 < (decDigitsChars dgs).length then '.' :: (decDigitsChars dgs).drop 1 else []) ++
          'E' :: (if adj < 0 then '-' :: natToDecStr (-adj).toNat
            else '+' :: natToDecStr adj.toNat)) = c0 :: t0 ∧ c0 = decDigitChar d0 := by
      rw [hdgs, decDigitsChars, List.map_cons, List.take_succ_cons, List.take_zero,
        List.singleton_append]
      exact ⟨decDigitChar d0, _, rfl, rfl⟩
    rw [← List.append_assoc] at hct
    rw [hct, parseDecimal_sign sgn _ _
      (by rw [hc0eq]; intro he; rw [he] at hc0; revert hc0; decide)
      (by rw [hc0eq]; intro he; rw [he] at hc0; revert hc0; decide), ← hct]
    simp only [parseDecimalBody, splitAtChar_append 'E' _ _ hEnot]
    have hexpparse : parseInt (if adj < 0 then '-' :: natToDecStr (-adj).toNat
        else '+' :: natToDecStr adj.toNat) = Except.ok adj := by
      by_cases hadjn : adj < 0
      · rw [if_pos hadjn]
        simp only [parseInt, if_pos rfl, parseNat_natToDecStr]
        have : -(((-adj).toNat : Nat) : Int) = adj := by omega
        rw [this]
        simp
      · rw [if_neg hadjn]
        simp only [parseInt, if_neg (by decide : ¬('+' = '-')), if_pos rfl,
          parseNat_natToDecStr]
        have : ((adj.toNat : Nat) : Int) = adj := by omega
        rw [this]
        simp
    simp only [hexpparse]
    by_cases hL1 : 1 < (decDigitsChars dgs).length
    · rw [if_pos hL1]
      have htake : (decDigitsChars dgs).take 1 = decDigitsChars (dgs.take 1) := by
        rw [decDigitsChars, decDigitsChars, List.map_take]
      have hdrop : (decDigitsChars dgs).drop 1 = decDigitsChars (dgs.drop 1) := by
        rw [decDigitsChars, decDigitsChars, List.map_drop]
      simp only [splitAtChar_append '.' _ _
        (no_special_mem _ hdotd _ (fun c hc => hbounds c (List.take_subset _ _ hc)))]
      simp only [htake, hdrop,
        digitVals_decDigitsChars _ (fun x hx => hlt x (List.take_subset _ _ hx)),
        digitVals_decDigitsChars _ (fun x hx => hlt x (List.drop_subset _ _ hx))]
      rw [if_neg (by
        intro hempty
        have h1 := hempty.1
        rw [hdgs, List.take_succ_cons] at h1
        simp at h1)]
      rw [List.take_append_drop, hstrip]
      have hexp : adj - ((dgs.drop 1).length : Int) = ex := by
        rw [List.length_drop]
        rw [hdglen] at hL1
        omega
      rw [hexp]
    · rw [if_neg hL1]
      have hlen1 : dgs.length = 1 := by
        rw [hdglen] at hL1
        omega
      have htake1 : (decDigitsChars dgs).take 1 = decDigitsChars dgs := by
        apply List.take_of_length_le
        rw [hdglen]
        omega
      rw [List.append_nil, htake1]
      simp only [splitAtChar_not_mem '.' _ hdotnotdg, hdg,
        show digitVals [] = some [] from rfl]
      rw [if_neg (by
        intro hempty
        have h1 := hempty.1
        rw [hdgs] at h1
        simp at h1)]
      rw [List.append_nil, hstrip]
      have hexp : adj - (([] : List Nat).length : Int) = ex := by
        simp
        omega
      rw [hexp]

theorem ebind_ok {α β : Type} (a : α) (f : α → Except String β) :
    (Except.ok a : Except String α) >>= f = f a := rfl

theorem emap_ok {α β : Type} (a : α) (f : α → β) :
    (Except.ok a : Except String α).map f = Except.ok (f a) := rfl

theorem ofMarker_value (dt : DataType) : DataType.ofMarker dt.value = some dt := by
  cases dt <;> rfl

/-- Deserialization undoes serialization (the two leading characters are the
marker and the colon). -/
theorem deserialize_serialize (v : PValue) (hv : v.Valid) :
    deserialize_with_type
      ((serialize_with_type v).2.value :: ':' :: (serialize_with_type v).1)
      (serialize_with_type v).2 = Except.ok v := by
  cases v with
  | none => rfl
  | bool b => cases b <;> rfl
  | int i =>
    simp only [serialize_with_type, deserialize_with_type, DataType.value,
      List.drop_succ_cons, List.drop_zero, parseInt_intToStr i, emap_ok]
  | dec d =>
    simp only [serialize_with_type, deserialize_with_type, DataType.value,
      List.drop_succ_cons, List.drop_zero, parseDecimal_decimalToStr d hv, emap_ok]
  | str s => rfl

theorem rot0_id : ∀ x < 256, ((x >>> 0) ||| (x <<< (8 - 0))) &&& 255 = x := by decide

theorem and255_id : ∀ x < 256, x &&& 255 = x := by decide

/-- At position 0 the forward transform is three XOR layers (rotation by 0
is the identity and the scramble mask is 41). -/
theorem forwardByte_at_zero (st : AnonState) (b : Nat) (hb : b < 256)
    (hP : ∀ x ∈ st.primary_sequence, x < 256)
    (hS : ∀ x ∈ st.secondary_sequence, x < 256) :
    forwardByte st b 0 =
      b ^^^ st.primary_sequence.getD 0 0 ^^^ st.secondary_sequence.getD 0 0 ^^^ 41 := by
  have hP0 : st.primary_sequence.getD 0 0 < 256 := getD_lt_256 hP 0
  have hS0 : st.secondary_sequence.getD 0 0 < 256 := getD_lt_256 hS 0
  simp only [forwardByte, bitwise_transform_byte, positional_bit_scramble, Nat.zero_mod]
  rw [rot0_id _ (xor_lt_256 hb hP0), Nat.add_zero, and255_id _ hS0,
    if_neg (by decide : ¬((0 : Nat) &&& 1 = 1)),
    show (0 * 13 + 41) &&& 255 = 41 from by decide]

theorem xor41_ne_zero (P0 S0 : Nat) (h : P0 ^^^ S0 ≠ 40) :
    1 ^^^ P0 ^^^ S0 ^^^ 41 ≠ 0 := by
  intro h0
  apply h
  have h1 : 1 ^^^ P0 ^^^ S0 = 41 := Nat.xor_eq_zero.mp h0
  have h2 : 1 ^^^ (P0 ^^^ S0) = 41 := by rw [← Nat.xor_assoc]; exact h1
  have h3 : P0 ^^^ S0 = 1 ^^^ 41 := by
    calc P0 ^^^ S0 = 1 ^^^ (1 ^^^ (P0 ^^^ S0)) := by
          rw [← Nat.xor_assoc, Nat.xor_self, Nat.zero_xor]
      _ = 1 ^^^ 41 := by rw [h2]
  rw [h3]
  decide

/-- Reduction of `deanonymize` through its five successful steps. -/
theorem deanonymize_steps (st : AnonState) (token : List Char) (m : Char) (d : List Char)
    (dt : DataType) (bs : List Nat) (cs : List Char) (v : PValue)
    (h1 : parse_token token = Except.ok (m, d))
    (h2 : DataType.ofMarker m = some dt)
    (h3 : bitwise_deanonymize st d = Except.ok bs)
    (h4 : utf8Decode bs = some cs)
    (h5 : deserialize_with_type cs dt = Except.ok v) :
    deanonymize st token = Except.ok v := by
  simp only [deanonymize, h1, ebind_ok, h2, h3, h4, h5]

/-- Round-trip of the full pipeline for every supported value, for any
keystream state whose first bytes do not XOR to 40 (equivalently: the
first transformed byte of the versioned payload is nonzero, so the base-36
integer round-trip loses no leading byte). -/
theorem roundtrip_first_byte (st : AnonState) (v : PValue)
    (hP : ∀ x ∈ st.primary_sequence, x < 256)
    (hS : ∀ x ∈ st.secondary_sequence, x < 256)
    (hv : v.Valid)
    (hz : st.primary_sequence.getD 0 0 ^^^ st.secondary_sequence.getD 0 0 ≠ 40) :
    deanonymize st (anonymize st v) = Except.ok v := by
  have hmne : (serialize_with_type v).2.value ≠ '_' := by
    cases v <;> simp only [serialize_with_type, DataType.value] <;> decide
  have hdata_lt : ∀ x ∈ (1 : Nat) ::
      utf8Encode ((serialize_with_type v).2.value :: ':' :: (serialize_with_type v).1),
      x < 256 := by
    intro x hx
    rcases List.mem_cons.mp hx with hx | hx
    · subst hx; norm_num
    · exact utf8Encode_mem_lt _ x hx
  have hT_lt : ∀ x ∈ mapWithPos (fun pos byte => forwardByte st byte pos) 0
      ((1 : Nat) ::
        utf8Encode ((serialize_with_type v).2.value :: ':' :: (serialize_with_type v).1)),
      x < 256 :=
    mapWithPos_mem_lt _ (fun p b => forwardByte_lt st b p) 0 _
  have hhead : (mapWithPos (fun pos byte => forwardByte st byte pos) 0
      ((1 : Nat) ::
        utf8Encode ((serialize_with_type v).2.value :: ':' :: (serialize_with_type v).1))).headD 0
      ≠ 0 := by
    show forwardByte st 1 0 ≠ 0
    rw [forwardByte_at_zero st 1 (by norm_num) hP hS]
    exact xor41_ne_zero _ _ hz
  have hund : '_' ∉ to_base36 (bytesToNat
      (mapWithPos (fun pos byte => forwardByte st byte pos) 0
        ((1 : Nat) ::
          utf8Encode ((serialize_with_type v).2.value :: ':' :: (serialize_with_type v).1)))) := by
    intro hm
    have := to_base36_subset _ _ hm
    revert this
    decide
  refine deanonymize_steps st (anonymize st v) (serialize_with_type v).2.value
    (to_base36 (bytesToNat
      (mapWithPos (fun pos byte => forwardByte st byte pos) 0
        ((1 : Nat) ::
          utf8Encode ((serialize_with_type v).2.value :: ':' :: (serialize_with_type v).1)))))
    (serialize_with_type v).2
    (utf8Encode ((serialize_with_type v).2.value :: ':' :: (serialize_with_type v).1))
    ((serialize_with_type v).2.value :: ':' :: (serialize_with_type v).1)
    v ?_ (ofMarker_value _) ?_ (utf8Decode_encode _) (deserialize_serialize v hv)
  · exact parse_token_create _ _ hmne hund
  · rw [bitwise_deanonymize, base36_to_bytes, from_base36_to_base36, emap_ok, emap_ok,
      natToBytesBE_bytesToNat _ hT_lt hhead,
      mapWithPos_inv_fwd st hP 0 _ hdata_lt]
    rfl

/-- C1 (amended): for every supported value in the model (strings including
multi-byte Unicode, integers including negative, booleans, canonical exact
decimals, null; floats are outside the embedding) and every keystream
state of byte values whose two leading keystream bytes do not XOR to 40 —
equivalently, whose first transformed payload byte is nonzero —
`deanonymize (anonymize v) = v` with the type preserved. -/
theorem claim_C1_roundtrip (st : AnonState) (v : PValue)
    (hP : ∀ x ∈ st.primary_sequence, x < 256)
    (hS : ∀ x ∈ st.secondary_sequence, x < 256)
    (hv : v.Valid)
    (hz : st.primary_sequence.getD 0 0 ^^^ st.secondary_sequence.getD 0 0 ≠ 40) :
    deanonymize st (anonymize st v) = Except.ok v :=
  roundtrip_first_byte st v hP hS hv hz

/-- Witness for C1 (amended) at a concrete state and value. -/
theorem claim_C1_witness :
    ((∀ x ∈ [5, 17], x < 256) ∧ (∀ x ∈ [9, 33], x < 256) ∧
      PValue.Valid (PValue.str ['x']) ∧
      ([5, 17].getD 0 0 ^^^ [9, 33].getD 0 0 ≠ 40)) ∧
    deanonymize ⟨[5, 17], [9, 33]⟩ (anonymize ⟨[5, 17], [9, 33]⟩ (PValue.str ['x'])) =
      Except.ok (PValue.str ['x']) :=
  ⟨⟨by decide, by decide, trivial, by decide⟩,
    claim_C1_roundtrip ⟨[5, 17], [9, 33]⟩ (PValue.str ['x'])
      (by decide) (by decide) trivial (by decide)⟩

theorem claim_C5_witness :
    (∀ b ∈ [0, 7, 255], b < 256) ∧
    (bytes_to_base36 [] = ['0'] ∧
      base36_to_bytes (bytes_to_base36 [0, 7, 255]) =
        Except.ok (natToBytesBE (bytesToNat [0, 7, 255])) ∧
      (natToBytesBE (bytesToNat [0, 7, 255])).length =
        (bitLen (bytesToNat [0, 7, 255]) + 7) / 8 ∧
      bytesToNat (natToBytesBE (bytesToNat [0, 7, 255])) = bytesToNat [0, 7, 255]) :=
  ⟨by decide, claim_C5_base36_codec [0, 7, 255] (by decide)⟩

theorem sha256Block_length (H b : List Nat) : (sha256Block H b).length = 8 := rfl

theorem sha512Block_length (H b : List Nat) : (sha512Block H b).length = 8 := rfl

theorem foldl_sha256Block_length (chunks : List (List Nat)) :
    ∀ H : List Nat, H.length = 8 → (chunks.foldl sha256Block H).length = 8 := by
  induction chunks with
  | nil => intro H h; simpa using h
  | cons c t ih => intro H h; rw [List.foldl_cons]; exact ih _ (sha256Block_length H c)

theorem foldl_sha512Block_length (chunks : List (List Nat)) :
    ∀ H : List Nat, H.length = 8 → (chunks.foldl sha512Block H).length = 8 := by
  induction chunks with
  | nil => intro H h; simpa using h
  | cons c t ih => intro H h; rw [List.foldl_cons]; exact ih _ (sha512Block_length H c)

theorem flatten_map_toBytesFixed_length (L : Nat) (l : List Nat) :
    ((l.map (toBytesFixed L)).flatten).length = L * l.length := by
  induction l with
  | nil => simp
  | cons b t ih =>
    simp only [List.map_cons, List.flatten_cons, List.length_append, toBytesFixed_length, ih,
      List.length_cons]
    ring

theorem flatten_map_toBytesFixed_mem_lt (L : Nat) (l : List Nat) :
    ∀ b ∈ (l.map (toBytesFixed L)).flatten, b < 256 := by
  induction l with
  | nil => intro b hb; simp at hb
  | cons x t ih =>
    intro b hb
    simp only [List.map_cons, List.flatten_cons, List.mem_append] at hb
    rcases hb with hb | hb
    · exact toBytesFixed_mem_lt L x b hb
    · exact ih b hb

/-- A SHA-256 digest has 32 bytes. -/
theorem sha256_length (msg : List Nat) : (sha256 msg).length = 32 := by
  show (((chunk16 (bytesToWords32 (sha2Pad 8 64 msg))).foldl sha256Block sha256H0).map
    (toBytesFixed 4)).flatten.length = 32
  rw [flatten_map_toBytesFixed_length,
    foldl_sha256Block_length (chunk16 (bytesToWords32 (sha2Pad 8 64 msg))) sha256H0 rfl]

/-- A SHA-512 digest has 64 bytes. -/
theorem sha512_length (msg : List Nat) : (sha512 msg).length = 64 := by
  show (((chunk16 (bytesToWords64 (sha2Pad 16 128 msg))).foldl sha512Block sha512H0).map
    (toBytesFixed 8)).flatten.length = 64
  rw [flatten_map_toBytesFixed_length,
    foldl_sha512Block_length (chunk16 (bytesToWords64 (sha2Pad 16 128 msg))) sha512H0 rfl]

/-- SHA-256 digests are byte lists. -/
theorem sha256_mem_lt (msg : List Nat) : ∀ b ∈ sha256 msg, b < 256 := by
  show ∀ b ∈ (((chunk16 (bytesToWords32 (sha2Pad 8 64 msg))).foldl sha256Block sha256H0).map
    (toBytesFixed 4)).flatten, b < 256
  exact flatten_map_toBytesFixed_mem_lt 4 _

/-- SHA-512 digests are byte lists. -/
theorem sha512_mem_lt (msg : List Nat) : ∀ b ∈ sha512 msg, b < 256 := by
  show ∀ b ∈ (((chunk16 (bytesToWords64 (sha2Pad 16 128 msg))).foldl sha512Block sha512H0).map
    (toBytesFixed 8)).flatten, b < 256
  exact flatten_map_toBytesFixed_mem_lt 8 _

theorem getD_append_left (l t : List Nat) (i : Nat) (h : i < l.length) :
    (l ++ t).getD i 0 = l.getD i 0 := by
  induction l generalizing i with
  | nil => simp at h
  | cons x xs ih =>
    cases i with
    | zero => rfl
    | succ j =>
      simp only [List.cons_append, List.getD_cons_succ]
      exact ih j (by simpa using h)

theorem getD_take_lt (l : List Nat) (n i : Nat) (h : i < n) :
    (l.take n).getD i 0 = l.getD i 0 := by
  induction l generalizing n i with
  | nil => simp
  | cons x xs ih =>
    cases n with
    | zero => omega
    | succ m =>
      cases i with
      | zero => rfl
      | succ j =>
        simp only [List.take_succ_cons, List.getD_cons_succ]
        exact ih m j (by omega)

/-- Whatever the fuel, the accumulator is a prefix of the loop's output. -/
theorem generateGo_extends (hash : List Nat → List Nat) (key : List Nat) (len : Nat) :
    ∀ fuel acc cur, ∃ rest, generateGo hash key len fuel acc cur = acc ++ rest := by
  intro fuel
  induction fuel with
  | zero => intro acc cur; exact ⟨[], by simp [generateGo]⟩
  | succ fuel ih =>
    intro acc cur
    rw [generateGo]
    by_cases hlt : acc.length < len
    · rw [if_pos hlt]
      obtain ⟨rest, hr⟩ := ih (acc ++ hash (cur ++ key)) (hash (cur ++ key))
      exact ⟨hash (cur ++ key) ++ rest, by rw [hr, List.append_assoc]⟩
    · rw [if_neg hlt]; exact ⟨[], by simp⟩

/-- Inside the first digest, the keystream agrees with `hash(key ++ key)`. -/
theorem generate_sequence_getD (hash : List Nat → List Nat) (key : List Nat)
    (len i : Nat) (hlen : 0 < len) (hi : i < len) (hdi : i < (hash (key ++ key)).length) :
    (generate_sequence hash key len).getD i 0 = (hash (key ++ key)).getD i 0 := by
  rw [generate_sequence, generateGo, if_pos (by simpa using hlen)]
  obtain ⟨rest, hr⟩ :=
    generateGo_extends hash key len len ([] ++ hash (key ++ key)) (hash (key ++ key))
  rw [hr, List.nil_append, getD_take_lt _ _ _ hi, getD_append_left _ _ _ hdi]

theorem generateGo_mem_lt (hash : List Nat → List Nat) (key : List Nat) (len : Nat)
    (hh : ∀ m, ∀ b ∈ hash m, b < 256) :
    ∀ fuel acc cur, (∀ b ∈ acc, b < 256) →
      ∀ b ∈ generateGo hash key len fuel acc cur, b < 256 := by
  intro fuel
  induction fuel with
  | zero => intro acc cur hacc; simpa [generateGo] using hacc
  | succ fuel ih =>
    intro acc cur hacc
    rw [generateGo]
    by_cases hlt : acc.length < len
    · rw [if_pos hlt]
      refine ih _ _ ?_
      intro b hb
      rcases List.mem_append.mp hb with hb | hb
      · exact hacc b hb
      · exact hh _ b hb
    · rw [if_neg hlt]; exact hacc

theorem generate_sequence_mem_lt (hash : List Nat → List Nat) (key : List Nat) (len : Nat)
    (hh : ∀ m, ∀ b ∈ hash m, b < 256) :
    ∀ b ∈ generate_sequence hash key len, b < 256 := by
  intro b hb
  rw [generate_sequence] at hb
  exact generateGo_mem_lt hash key len hh (len + 1) [] key (by simp) b
    (List.take_subset _ _ hb)

/-- The primary keystream of any constructed anonymizer is a byte list. -/
theorem mkAnon_primary_lt (p s : List Char) :
    ∀ x ∈ (mkAnonymizer p s).primary_sequence, x < 256 :=
  generate_sequence_mem_lt sha256 (utf8Encode p) 2048 (fun m => sha256_mem_lt m)

/-- The secondary keystream of any constructed anonymizer is a byte list. -/
theorem mkAnon_secondary_lt (p s : List Char) :
    ∀ x ∈ (mkAnonymizer p s).secondary_sequence, x < 256 :=
  generate_sequence_mem_lt sha512 (utf8Encode s) 2048 (fun m => sha512_mem_lt m)


/-- First keystream byte for the primary key "key1":
`sha256(b"key1key1")[0] = 172`. -/
theorem badKeys_primary_getD0 :
    (mkAnonymizer ['k', 'e', 'y', '1'] ['k', '1', '0', '7']).primary_sequence.getD 0 0 = 172 := by
  simp only [mkAnonymizer]
  have h := generate_sequence_getD sha256 (utf8Encode ['k', 'e', 'y', '1']) 2048 0 (by decide)
    (by decide)
    (by have := sha256_length (utf8Encode ['k', 'e', 'y', '1'] ++ utf8Encode ['k', 'e', 'y', '1'])
        omega)
  have h2 : (sha256 (utf8Encode ['k', 'e', 'y', '1'] ++ utf8Encode ['k', 'e', 'y', '1'])).getD 0 0
      = 172 := by decide
  exact h.trans h2

/-- First keystream byte for the secondary key "k107":
`sha512(b"k107k107")[0] = 132`. -/
theorem badKeys_secondary_getD0 :
    (mkAnonymizer ['k', 'e', 'y', '1'] ['k', '1', '0', '7']).secondary_sequence.getD 0 0 = 132 := by
  simp only [mkAnonymizer]
  have h := generate_sequence_getD sha512 (utf8Encode ['k', '1', '0', '7']) 2048 0 (by decide)
    (by decide)
    (by have := sha512_length (utf8Encode ['k', '1', '0', '7'] ++ utf8Encode ['k', '1', '0', '7'])
        omega)
  have h2 : (sha512 (utf8Encode ['k', '1', '0', '7'] ++ utf8Encode ['k', '1', '0', '7'])).getD 0 0
      = 132 := by decide
  exact h.trans h2

theorem ebind_err {α β : Type} (e : String) (f : α → Except String β) :
    (Except.error e : Except String α) >>= f = Except.error e := rfl

/-- Reduction of `deanonymize` through parsing, type lookup and byte
decoding, leaving the UTF-8 decode and deserialization steps. -/
theorem deanonymize_steps_decode (st : AnonState) (token : List Char) (m : Char)
    (d : List Char) (dt : DataType) (bs : List Nat)
    (h1 : parse_token token = Except.ok (m, d))
    (h2 : DataType.ofMarker m = some dt)
    (h3 : bitwise_deanonymize st d = Except.ok bs) :
    deanonymize st token =
      (match utf8Decode bs with
        | some cs => Except.ok cs
        | Option.none => Except.error "UnicodeDecodeError") >>=
        fun typed_data => deserialize_with_type typed_data dt := by
  simp only [deanonymize, h1, ebind_ok, h2, h3]
  cases utf8Decode bs with
  | none => rfl
  | some cs => rfl

theorem xor40_fb_zero (P0 S0 : Nat) (h : P0 ^^^ S0 = 40) :
    1 ^^^ P0 ^^^ S0 ^^^ 41 = 0 := by
  rw [Nat.xor_assoc 1 P0 S0, h]
  decide

/-- If the two leading keystream bytes XOR to 40, the first transformed
byte of the versioned payload is 0, the base-36 integer codec drops it,
and the round trip of the one-character string "x" cannot return it:
the decoded payload has at most 3 bytes, so after the version strip and
the two-character type header at most 0 characters remain. -/
theorem roundtrip_drops_leading (st : AnonState)
    (hP : ∀ x ∈ st.primary_sequence, x < 256)
    (hS : ∀ x ∈ st.secondary_sequence, x < 256)
    (hz : st.primary_sequence.getD 0 0 ^^^ st.secondary_sequence.getD 0 0 = 40) :
    deanonymize st (anonymize st (PValue.str ['x'])) ≠ Except.ok (PValue.str ['x']) := by
  have ht0 : forwardByte st 1 0 = 0 := by
    rw [forwardByte_at_zero st 1 (by decide) hP hS]
    exact xor40_fb_zero _ _ hz
  have hanon : anonymize st (PValue.str ['x']) = create_token 'S'
      (to_base36 (bytesToNat (forwardByte st 1 0 ::
        mapWithPos (fun pos byte => forwardByte st byte pos) 1 [83, 58, 120]))) := rfl
  have hT3lt : ∀ x ∈ mapWithPos (fun pos byte => forwardByte st byte pos) 1 [83, 58, 120],
      x < 256 := mapWithPos_mem_lt _ (fun p b => forwardByte_lt st b p) 1 _
  have hT3len : (mapWithPos (fun pos byte => forwardByte st byte pos) 1 [83, 58, 120]).length
      = 3 := by rw [mapWithPos_length]; rfl
  have hn : bytesToNat (forwardByte st 1 0 ::
      mapWithPos (fun pos byte => forwardByte st byte pos) 1 [83, 58, 120]) =
      bytesToNat (mapWithPos (fun pos byte => forwardByte st byte pos) 1 [83, 58, 120]) := by
    rw [bytesToNat_cons, ht0]
    omega
  have hn3 : bytesToNat (mapWithPos (fun pos byte => forwardByte st byte pos) 1 [83, 58, 120])
      < 256 ^ 3 := by
    have := bytesToNat_lt _ hT3lt
    rw [hT3len] at this
    exact this
  have hund : '_' ∉ to_base36 (bytesToNat
      (mapWithPos (fun pos byte => forwardByte st byte pos) 1 [83, 58, 120])) := by
    intro hm
    have := to_base36_subset _ _ hm
    revert this
    decide
  have h1 : parse_token (anonymize st (PValue.str ['x'])) = Except.ok ('S',
      to_base36 (bytesToNat
        (mapWithPos (fun pos byte => forwardByte st byte pos) 1 [83, 58, 120]))) := by
    rw [hanon, hn]
    exact parse_token_create _ _ (by decide) hund
  have h3 : bitwise_deanonymize st (to_base36 (bytesToNat
      (mapWithPos (fun pos byte => forwardByte st byte pos) 1 [83, 58, 120]))) =
      Except.ok ((mapWithPos (fun pos byte => inverseByte st byte pos) 0
        (natToBytesBE (bytesToNat
          (mapWithPos (fun pos byte => forwardByte st byte pos) 1 [83, 58, 120])))).drop 1) := by
    rw [bitwise_deanonymize, base36_to_bytes, from_base36_to_base36, emap_ok, emap_ok]
  have hbslen : ((mapWithPos (fun pos byte => inverseByte st byte pos) 0
      (natToBytesBE (bytesToNat
        (mapWithPos (fun pos byte => forwardByte st byte pos) 1 [83, 58, 120])))).drop 1).length
      ≤ 2 := by
    have hlen := natToBytesBE_length_le _ 3 hn3
    rw [List.length_drop, mapWithPos_length]
    omega
  intro hcontra
  rw [deanonymize_steps_decode st _ 'S' _ DataType.STRING _ h1 rfl h3] at hcontra
  cases hdec : utf8Decode ((mapWithPos (fun pos byte => inverseByte st byte pos) 0
      (natToBytesBE (bytesToNat
        (mapWithPos (fun pos byte => forwardByte st byte pos) 1 [83, 58, 120])))).drop 1) with
  | none =>
    rw [hdec] at hcontra
    simp only [ebind_err] at hcontra
    exact Except.noConfusion hcontra
  | some cs =>
    rw [hdec] at hcontra
    simp only [ebind_ok, deserialize_with_type] at hcontra
    have hcslen : cs.length ≤ 2 := le_trans (utf8Decode_length_le _ cs hdec) hbslen
    have hdroplen : (cs.drop 2).length = 0 := by
      rw [List.length_drop]
      omega
    rw [Except.ok.injEq, PValue.str.injEq] at hcontra
    rw [hcontra] at hdroplen
    simp at hdroplen

/-- C1, a counterexample to the unamended claim: for the real key pair
("key1", "k107") the two leading keystream bytes are 172 and 132, whose
XOR is 40, so the first transformed payload byte is 0 and the base-36
integer codec silently drops it; deanonymize then returns a wrong value
(or an error) for `anonymize "x"` instead of restoring "x". -/
theorem claim_C1_counterexample :
    deanonymize (mkAnonymizer ['k', 'e', 'y', '1'] ['k', '1', '0', '7'])
        (anonymize (mkAnonymizer ['k', 'e', 'y', '1'] ['k', '1', '0', '7'])
          (PValue.str ['x'])) ≠
      Except.ok (PValue.str ['x']) :=
  roundtrip_drops_leading _ (mkAnon_primary_lt _ _) (mkAnon_secondary_lt _ _)
    (by rw [badKeys_primary_getD0, badKeys_secondary_getD0]; decide)

theorem xor40_v2_ne_zero (P0 S0 : Nat) (h : P0 ^^^ S0 = 40) :
    2 ^^^ P0 ^^^ S0 ^^^ 41 ≠ 0 := by
  rw [Nat.xor_assoc 2 P0 S0, h]
  decide

/-- If the two leading keystream bytes XOR to 40, a payload carrying the
unsupported version byte 2 survives the base-36 codec intact and is
silently accepted by `deanonymize`. -/
theorem version_two_accepted (st : AnonState)
    (hP : ∀ x ∈ st.primary_sequence, x < 256)
    (hS : ∀ x ∈ st.secondary_sequence, x < 256)
    (hz : st.primary_sequence.getD 0 0 ^^^ st.secondary_sequence.getD 0 0 = 40) :
    deanonymize st (create_token 'N' (bytes_to_base36 (mapWithPos
        (fun pos byte => forwardByte st byte pos) 0
        (2 :: utf8Encode ['N', ':', 'N', 'o', 'n', 'e'])))) = Except.ok PValue.none ∧
    (base36_to_bytes (bytes_to_base36 (mapWithPos
        (fun pos byte => forwardByte st byte pos) 0
        (2 :: utf8Encode ['N', ':', 'N', 'o', 'n', 'e'])))).map
      (mapWithPos (fun pos byte => inverseByte st byte pos) 0) =
      Except.ok (2 :: utf8Encode ['N', ':', 'N', 'o', 'n', 'e']) := by
  have hd_lt : ∀ x ∈ (2 : Nat) :: utf8Encode ['N', ':', 'N', 'o', 'n', 'e'], x < 256 := by
    intro x hx
    rcases List.mem_cons.mp hx with hx | hx
    · subst hx; decide
    · exact utf8Encode_mem_lt _ x hx
  have hT_lt : ∀ x ∈ mapWithPos (fun pos byte => forwardByte st byte pos) 0
      ((2 : Nat) :: utf8Encode ['N', ':', 'N', 'o', 'n', 'e']), x < 256 :=
    mapWithPos_mem_lt _ (fun p b => forwardByte_lt st b p) 0 _
  have hhead : (mapWithPos (fun pos byte => forwardByte st byte pos) 0
      ((2 : Nat) :: utf8Encode ['N', ':', 'N', 'o', 'n', 'e'])).headD 0 ≠ 0 := by
    show forwardByte st 2 0 ≠ 0
    rw [forwardByte_at_zero st 2 (by decide) hP hS]
    exact xor40_v2_ne_zero _ _ hz
  have hb36 : base36_to_bytes (bytes_to_base36 (mapWithPos
      (fun pos byte => forwardByte st byte pos) 0
      ((2 : Nat) :: utf8Encode ['N', ':', 'N', 'o', 'n', 'e']))) =
      Except.ok (mapWithPos (fun pos byte => forwardByte st byte pos) 0
        ((2 : Nat) :: utf8Encode ['N', ':', 'N', 'o', 'n', 'e'])) := by
    rw [bytes_to_base36, base36_to_bytes, from_base36_to_base36, emap_ok,
      natToBytesBE_bytesToNat _ hT_lt hhead]
  have hund : '_' ∉ bytes_to_base36 (mapWithPos
      (fun pos byte => forwardByte st byte pos) 0
      ((2 : Nat) :: utf8Encode ['N', ':', 'N', 'o', 'n', 'e'])) := by
    intro hm
    rw [bytes_to_base36] at hm
    have := to_base36_subset _ _ hm
    revert this
    decide
  have h3 : bitwise_deanonymize st (bytes_to_base36 (mapWithPos
      (fun pos byte => forwardByte st byte pos) 0
      ((2 : Nat) :: utf8Encode ['N', ':', 'N', 'o', 'n', 'e']))) =
      Except.ok (utf8Encode ['N', ':', 'N', 'o', 'n', 'e']) := by
    rw [bitwise_deanonymize, hb36, emap_ok, mapWithPos_inv_fwd st hP 0 _ hd_lt]
    rfl
  refine ⟨?_, ?_⟩
  · exact deanonymize_steps st _ 'N' _ DataType.NONE _ _ PValue.none
      (parse_token_create _ _ (by decide) hund) rfl h3
      (utf8Decode_encode ['N', ':', 'N', 'o', 'n', 'e']) rfl
  · rw [hb36, emap_ok, mapWithPos_inv_fwd st hP 0 _ hd_lt]

/-- C3 (code bug): `deanonymize` never inspects the decoded version byte,
although its docstring says "Checks version byte" and the spec demands a
version error for unsupported versions.  With the keys "key1"/"k107", a
token whose decoded payload carries the unsupported version byte 2
(second conjunct: the inverse transform of the decoded payload is
exactly `2 :: utf8("N:None")`) is silently deanonymized to `None`
(first conjunct) instead of failing. -/
theorem claim_C3_version_byte_ignored :
    deanonymize (mkAnonymizer ['k', 'e', 'y', '1'] ['k', '1', '0', '7'])
        (create_token 'N' (bytes_to_base36 (mapWithPos
          (fun pos byte =>
            forwardByte (mkAnonymizer ['k', 'e', 'y', '1'] ['k', '1', '0', '7']) byte pos) 0
          (2 :: utf8Encode ['N', ':', 'N', 'o', 'n', 'e'])))) = Except.ok PValue.none ∧
    (base36_to_bytes (bytes_to_base36 (mapWithPos
        (fun pos byte =>
          forwardByte (mkAnonymizer ['k', 'e', 'y', '1'] ['k', '1', '0', '7']) byte pos) 0
        (2 :: utf8Encode ['N', ':', 'N', 'o', 'n', 'e'])))).map
      (mapWithPos (fun pos byte =>
        inverseByte (mkAnonymizer ['k', 'e', 'y', '1'] ['k', '1', '0', '7']) byte pos) 0) =
      Except.ok (2 :: utf8Encode ['N', ':', 'N', 'o', 'n', 'e']) :=
  version_two_accepted _ (mkAnon_primary_lt _ _) (mkAnon_secondary_lt _ _)
    (by rw [badKeys_primary_getD0, badKeys_secondary_getD0]; decide)

/-- C9: `anonymize` is deterministic: any two anonymizer states
constructed from the same key pair are equal and produce identical
tokens for every value — the pipeline is a pure function of the keys
and the value, with no randomness at encode time. -/
theorem claim_C9_determinism (p s : List Char) (v : PValue) (st1 st2 : AnonState)
    (h1 : st1 = mkAnonymizer p s) (h2 : st2 = mkAnonymizer p s) :
    anonymize st1 v = anonymize st2 v ∧ st1 = st2 := by
  subst h1
  subst h2
  exact ⟨rfl, rfl⟩

/-- Witness for C9 at concrete keys and value. -/
theorem claim_C9_witness :
    (mkAnonymizer ['a'] ['b'] = mkAnonymizer ['a'] ['b']) ∧
    (anonymize (mkAnonymizer ['a'] ['b']) (PValue.int 7) =
        anonymize (mkAnonymizer ['a'] ['b']) (PValue.int 7) ∧
      mkAnonymizer ['a'] ['b'] = mkAnonymizer ['a'] ['b']) :=
  ⟨rfl, claim_C9_determinism ['a'] ['b'] (PValue.int 7) _ _ rfl rfl⟩

end Anon
